import Mathlib

/-!
# candela: backlight fade scheduler

A shallow embedding of `src/candela.cpp` (namespace `candella`): the configuration,
the light sensor's moving average, the brightness curve, and the timer-queue loop
with its two actions (`BACKLIGHT_POLL`, `BACKLIGHT_FADE`).

Conventions of the embedding.

* `int32_t` values are integers kept in `[-2^31, 2^31)`; every `int32_t` result is
  passed through `wrap32` (two's complement wraparound).  Signed overflow is
  undefined in the source, so a wrapped result stands for the source only where the
  exact result is in range (`in_i32`).  `std::size_t` is the 64-bit unsigned type: a
  signed operand that meets a `size_t` operand is first reduced modulo `2^64`
  (`to_size`).
* `double` values are rationals; every arithmetic operation rounds its exact result
  to the nearest binary64 value, ties to even (`rnd`).  `std::log` is library code
  and is a parameter `logd`.
* Time points are integer counts of clock ticks (nanoseconds); a duration of `d`
  milliseconds is `ms d` ticks.  The readings of the clock, the sensor line and the
  display's reply are inputs of each loop iteration (`Input`).
* Queue entries carry a ghost serial number `id` (the order of the `emplace` calls)
  and the state carries a ghost trace `display` of the values passed to
  `set_brightness`; no operation reads either of them.
-/

namespace candella

/-! ## Machine integers -/

/-- Conversion of a mathematical integer to `int32_t` (two's complement). -/
def wrap32 (x : Int) : Int := (x + 2147483648) % 4294967296 - 2147483648

/-- Conversion of a signed integer to the 64-bit unsigned `std::size_t`. -/
def to_size (x : Int) : Nat := (x % 18446744073709551616).toNat

/-- The range of `int32_t`. -/
def in_i32 (x : Int) : Prop := -2147483648 ≤ x ∧ x < 2147483648

instance (x : Int) : Decidable (in_i32 x) := by unfold in_i32; infer_instance

/-! ## Configuration -/

/-- The fields of `struct configuration` that the loop reads (durations in ms). -/
structure configuration where
  poll_time : Nat
  fade_time : Nat
  fade_steps : Nat
  max_light : Int
  min_bright : Int
  deriving DecidableEq, Repr

/-- The global `config` object with the default member initialisers. -/
def config : configuration :=
  { poll_time := 500, fade_time := 200, fade_steps := 10, max_light := 255, min_bright := 7 }

/-- Ticks of `std::chrono::system_clock` in a duration of `d` milliseconds. -/
def ms (d : Nat) : Int := (d : Int) * 1000000

/-! ## The timer queue -/

inductive action_type where
  | BACKLIGHT_POLL
  | BACKLIGHT_FADE
  deriving DecidableEq, Repr

/-- An element of `timer_queue`: key, mapped action, and the ghost serial number. -/
structure entry where
  time : Int
  action : action_type
  id : Nat
  deriving DecidableEq, Repr

/-- The member `std::multimap::emplace`: the new element goes to the upper bound of its key,
that is, before the first element whose key is strictly greater. -/
def emplace (t : Int) (a : action_type) (id : Nat) : List entry → List entry
  | [] => [⟨t, a, id⟩]
  | e :: q => if t < e.time then ⟨t, a, id⟩ :: e :: q else e :: emplace t a id q

/-! ## Fade arithmetic -/

/-- Line 255: `step_size = (new_bright - curr_bright) / config.fade_steps`.
The `int32_t` difference is converted to `size_t`, divided as unsigned, and the
quotient is converted back to `int32_t`. -/
def step_size_of (fade_steps : Nat) (curr_bright new_bright : Int) : Int :=
  wrap32 ((to_size (wrap32 (new_bright - curr_bright)) / fade_steps : Nat) : Int)

/-- Lines 269-271: the new `curr_bright` of one `BACKLIGHT_FADE` action.
The `int32_t` addition `curr_bright += step_size` of line 269 is undefined in the source
when the exact sum leaves the `int32_t` range; the embedding then takes the two's
complement wraparound.  A value of `fade_value` therefore speaks for the source only where
`in_i32 (curr_bright + step_size)` holds. -/
def fade_value (curr_bright new_bright step_size : Int) : Int :=
  let c := wrap32 (curr_bright + step_size)
  if step_size = 0 ∨ c > new_bright then new_bright else c

/-! ## Double precision -/

/-- Nearest integer of a rational, ties to the even neighbour. -/
def rne (x : ℚ) : Int :=
  if x - ⌊x⌋ < 1 / 2 then ⌊x⌋
  else if 1 / 2 < x - ⌊x⌋ then ⌊x⌋ + 1
  else if ⌊x⌋ % 2 = 0 then ⌊x⌋ else ⌊x⌋ + 1

/-- Exponent of the last place of the binary64 values in the binade of `q`
(53-bit significand, smallest exponent `-1074`). -/
def ulp_exp (q : ℚ) : Int := max (Int.log 2 |q| - 52) (-1074)

/-- Rounding of an exact result to binary64, nearest with ties to even
(results beyond the largest finite binary64 value do not occur in this program). -/
def rnd (q : ℚ) : ℚ := (rne (q / 2 ^ ulp_exp q) : ℚ) * 2 ^ ulp_exp q

/-- The `double` sum. -/
def fadd (x y : ℚ) : ℚ := rnd (x + y)

/-- The `double` product. -/
def fmul (x y : ℚ) : ℚ := rnd (x * y)

/-- The `double` quotient. -/
def fdiv (x y : ℚ) : ℚ := rnd (x / y)

/-- Conversion `double -> int`: the fractional part is discarded. -/
def double_to_int (q : ℚ) : Int := if 0 ≤ q then ⌊q⌋ else ⌈q⌉

/-- Lines 62-66: `configuration::desired_brightness`,
`return max_brightness * std::log(1 + 100 * ambient_reading) / std::log(101);`
with the `double` result converted to the `int` return type. -/
def desired_brightness (logd : ℚ → ℚ) (max_brightness : Int) (ambient_reading : ℚ) : Int :=
  double_to_int
    (fdiv (fmul (max_brightness : ℚ) (logd (fadd 1 (fmul 100 ambient_reading)))) (logd 101))

/-! ## Parsing the sensor line -/

/-- The characters `std::isspace` accepts in the C locale. -/
def is_space (c : Char) : Bool :=
  c.toNat = 32 || (9 ≤ c.toNat && c.toNat ≤ 13)

/-- The value of the longest prefix of decimal digits, continuing from `acc`. -/
def read_digits : Nat → List Char → Nat
  | acc, [] => acc
  | acc, c :: cs => if c.isDigit then read_digits (acc * 10 + (c.toNat - 48)) cs else acc

/-- The function `std::stoi` in base 10: leading white space, an optional sign, then
the longest run of digits.  `none` stands for the exceptions `std::invalid_argument`
(no digit) and `std::out_of_range` (value outside `int`). -/
def stoi (s : List Char) : Option Int :=
  let s1 := s.dropWhile is_space
  let negative := s1.head? = some '-'
  let s2 := if s1.head? = some '-' ∨ s1.head? = some '+' then s1.drop 1 else s1
  match s2 with
  | [] => none
  | c :: _ =>
    if c.isDigit then
      let v : Int := if negative then -(read_digits 0 s2 : Int) else (read_digits 0 s2 : Int)
      if in_i32 v then some v else none
    else none

/-- Lines 52-59: `configuration::ambient_reading`.  `none` stands for the failed
`assert` and for an exception of `std::stoi`. -/
def ambient_reading (reading : List Char) : Option ℚ :=
  if reading.length ≤ 1 then none
  else
    let stop := reading.indexOf ','
    let val := (reading.drop 1).take (to_size ((stop : Int) - 1))
    (stoi val).map (fun n => fdiv (n : ℚ) 255)

/-! ## The light sensor -/

/-- The ways in which an iteration of the loop fails. -/
inductive Error where
  | sensor_read       -- `ambient_light::exception`
  | bad_reading       -- failed `assert` or exception of `std::stoi`
  | display_query     -- `backlight_adjuster::exception`
  | division_by_zero  -- `fade_steps == 0` at line 255
  | empty_queue       -- `timer_queue.begin()` of an empty queue
  deriving DecidableEq, Repr

/-- Lines 92-100: `ambient_light::read_value`; `line` is what `std::getline` read. -/
def read_value (line : Option (List Char)) : Except Error ℚ :=
  match line with
  | none => .error .sensor_read
  | some l =>
    match ambient_reading l with
    | none => .error .bad_reading
    | some v => .ok v

/-- Lines 72-75: the constructor fills the ten slots with one reading. -/
def ambient_light_new (line : Option (List Char)) : Except Error (List ℚ) :=
  match read_value line with
  | .error e => .error e
  | .ok v => .ok (List.replicate 10 v)

/-- The `std::accumulate(...) / values_.size()` of `poll`. -/
def window_mean (values_ : List ℚ) : ℚ := fdiv (values_.foldl fadd 0) 10

/-- Lines 82-89: `ambient_light::poll`: shift the window by one slot, store the new
reading in the last slot, return the mean.  The result is the new window and the
returned value. -/
def ambient_light_poll (line : Option (List Char)) (values_ : List ℚ) :
    Except Error (List ℚ × ℚ) :=
  match read_value line with
  | .error e => .error e
  | .ok v => .ok (values_.drop 1 ++ [v], window_mean (values_.drop 1 ++ [v]))

/-! ## The loop -/

/-- The variables of `loop()`. -/
structure State where
  timer_queue : List entry
  curr_bright : Int
  new_bright : Int
  step_size : Int
  values_ : List ℚ
  max_bright_ : Int
  display : List Int
  next_id : Nat
  deriving DecidableEq

/-- What one iteration of the loop reads from outside: `now i` is the value of the
`i`-th call of `steady_clock::now()` in the iteration (counted from 0), `line` what
`std::getline` got from the sensor file, `brightness` the reply to
`current_brightness()` (`none`: the query failed). -/
structure Input where
  now : Nat → Int
  line : Option (List Char)
  brightness : Option Int

/-- The call `timer_queue.emplace(t, a)` on the state, numbering the new entry. -/
def State.emplace (σ : State) (t : Int) (a : action_type) : State :=
  { σ with timer_queue := candella.emplace t a σ.next_id σ.timer_queue,
           next_id := σ.next_id + 1 }

/-- Lines 256-262: the `for` loop, from index `i` for `k` more rounds. -/
def schedule_fade (cfg : configuration) (now : Nat → Int) : Nat → Nat → State → State
  | _, 0, σ => σ
  | i, k + 1, σ =>
    schedule_fade cfg now (i + 1) k
      (σ.emplace (now i + ms (i * cfg.fade_time / cfg.fade_steps)) .BACKLIGHT_FADE)

/-- Lines 236-265: the `BACKLIGHT_POLL` branch. -/
def poll_branch (cfg : configuration) (logd : ℚ → ℚ) (inp : Input) (σ : State) :
    Except Error State :=
  match ambient_light_poll inp.line σ.values_ with
  | .error e => .error e
  | .ok (vs, ambient) =>
    match inp.brightness with
    | none => .error .display_query
    | some cb =>
      let nb := max (desired_brightness logd σ.max_bright_ ambient) cfg.min_bright
      let σ1 := { σ with values_ := vs, curr_bright := cb, new_bright := nb }
      if cb ≠ nb then
        if cfg.fade_steps = 0 then .error .division_by_zero
        else
          let σ2 := { σ1 with step_size := step_size_of cfg.fade_steps cb nb }
          let σ3 := schedule_fade cfg inp.now 0 cfg.fade_steps σ2
          .ok (σ3.emplace (inp.now cfg.fade_steps + ms cfg.poll_time) .BACKLIGHT_POLL)
      else .ok (σ1.emplace (inp.now 0 + ms cfg.poll_time) .BACKLIGHT_POLL)

/-- Lines 269-279: the `BACKLIGHT_FADE` branch. -/
def fade_branch (cfg : configuration) (inp : Input) (σ : State) : State :=
  let c := fade_value σ.curr_bright σ.new_bright σ.step_size
  let σ1 := { σ with curr_bright := c, display := σ.display ++ [c] }
  if c ≠ σ.new_bright then
    σ1.emplace (inp.now 0 + ms (cfg.fade_time / cfg.fade_steps)) .BACKLIGHT_FADE
  else σ1

/-- Lines 233-281: one iteration of `while (true)`: run the action of
`timer_queue.begin()`, then `timer_queue.erase(timer_queue.begin())`. -/
def step (cfg : configuration) (logd : ℚ → ℚ) (inp : Input) (σ : State) :
    Except Error State :=
  match σ.timer_queue with
  | [] => .error .empty_queue
  | e :: _ =>
    match e.action with
    | .BACKLIGHT_POLL =>
      match poll_branch cfg logd inp σ with
      | .error err => .error err
      | .ok σ1 => .ok { σ1 with timer_queue := σ1.timer_queue.tail }
    | .BACKLIGHT_FADE =>
      .ok { fade_branch cfg inp σ with timer_queue := (fade_branch cfg inp σ).timer_queue.tail }

/-- Lines 220-229: the state before the first iteration; `t0` is the clock reading of
line 225, `values_` the window built by the sensor's constructor, `max_bright_` the
maximum found by the adjuster's constructor. -/
def initial (t0 : Int) (values_ : List ℚ) (max_bright_ : Int) : State :=
  { timer_queue := [⟨t0, .BACKLIGHT_POLL, 0⟩], curr_bright := 0, new_bright := 0,
    step_size := 0, values_ := values_, max_bright_ := max_bright_, display := [],
    next_id := 1 }

/-- The loop run over the inputs of successive iterations, stopping at an error. -/
def run (cfg : configuration) (logd : ℚ → ℚ) : List Input → State → Except Error State
  | [], σ => .ok σ
  | inp :: rest, σ =>
    match step cfg logd inp σ with
    | .error e => .error e
    | .ok σ1 => run cfg logd rest σ1

/-! ## Predicates used by the statements -/

/-- Every entry of the queue is a fade action. -/
def all_fade (q : List entry) : Prop := ∀ e ∈ q, e.action = action_type.BACKLIGHT_FADE

/-- A state in the middle of a fade: target `T`, step `s`, `p` queued entries, all of them
fade actions. -/
structure fading (σ : State) (T s : Int) (p : Nat) : Prop where
  target : σ.new_bright = T
  step : σ.step_size = s
  fades : all_fade σ.timer_queue
  pending : σ.timer_queue.length = p

/-- The state in which a poll that read the brightness `c` and computed the target `t`
leaves the fade: the step size of line 255 and the `fade_steps` entries of lines 256-262
(every clock reading `0`), with no other entry in the queue. -/
def fade_start (cfg : configuration) (c t : Int) : State :=
  schedule_fade cfg (fun _ => 0) 0 cfg.fade_steps
    { timer_queue := [], curr_bright := c, new_bright := t,
      step_size := step_size_of cfg.fade_steps c t, values_ := [], max_bright_ := 0,
      display := [], next_id := 0 }

/-- An iteration in which every clock reading is `t` and neither the sensor nor the
display is consulted successfully (a fade action consults neither). -/
def quiet (t : Int) : Input := { now := fun _ => t, line := none, brightness := none }

/-- The pair `(curr_bright, new_bright)` after running the loop over `ins`
(`none` when an iteration fails). -/
def brightness_after (cfg : configuration) (ins : List Input) (σ : State) :
    Option (Int × Int) :=
  match run cfg (fun _ => 0) ins σ with
  | .error _ => none
  | .ok σ1 => some (σ1.curr_bright, σ1.new_bright)

/-- The state at the start of a run whose sensor constructor read the line `(0,0)`, on a
display with maximum brightness 255. -/
def dark_state : State := initial 0 (List.replicate 10 0) 255

/-- A poll in a dark room (sensor line `(0,0)`) with the display at brightness 100. -/
def dark_poll : Input := { now := fun _ => 0, line := some "(0,0)".toList, brightness := some 100 }

/-- A stand-in for `std::log` in the worked examples: the binary64 values of the natural
logarithm at 1, 51 and 101 (the correctly rounded ones), constant in between, so that it is
monotone. -/
def log_samples (x : ℚ) : ℚ :=
  if x < 51 then 0
  else if x < 101 then 8853684227211519 / 2 ^ 51
  else 5196163759979057 / 2 ^ 50

/-- The state the dark-room poll leaves behind from `dark_state`: brightness 100 read,
target 7, the step size of line 255, ten fade entries and the next poll queued, the executed
poll entry erased. -/
def dark_after_poll : State :=
  { (schedule_fade config dark_poll.now 0 config.fade_steps
      { dark_state with values_ := List.replicate 10 0, curr_bright := 100, new_bright := 7,
                        step_size := step_size_of config.fade_steps 100 7 }).emplace
      (dark_poll.now config.fade_steps + ms config.poll_time) action_type.BACKLIGHT_POLL with
    timer_queue :=
      ((schedule_fade config dark_poll.now 0 config.fade_steps
        { dark_state with values_ := List.replicate 10 0, curr_bright := 100, new_bright := 7,
                          step_size := step_size_of config.fade_steps 100 7 }).emplace
        (dark_poll.now config.fade_steps + ms config.poll_time)
        action_type.BACKLIGHT_POLL).timer_queue.tail }

/-- The entries whose actions the loop runs over the inputs `ins`, in the order of
execution: the queue heads of the successive iterations, up to the first failure. -/
def executed (cfg : configuration) (logd : ℚ → ℚ) : List Input → State → List entry
  | [], _ => []
  | inp :: rest, σ =>
    match σ.timer_queue.head?, step cfg logd inp σ with
    | some e, .ok σ1 => e :: executed cfg logd rest σ1
    | _, _ => []

/-- In every iteration of the run, no clock reading is earlier than the timestamp of the
entry at the head of the queue. -/
def clock_not_early (cfg : configuration) (logd : ℚ → ℚ) : List Input → State → Prop
  | [], _ => True
  | inp :: rest, σ =>
    (∀ e, σ.timer_queue.head? = some e → ∀ i, e.time ≤ inp.now i) ∧
    (∀ σ1, step cfg logd inp σ = .ok σ1 → clock_not_early cfg logd rest σ1)

/-- The order of the queue: by key, entries of equal key by serial number. -/
def before (a b : entry) : Prop := a.time < b.time ∨ (a.time = b.time ∧ a.id < b.id)

/-- The queue is in order and its serial numbers have been handed out. -/
def queue_ok (σ : State) : Prop :=
  σ.timer_queue.Pairwise before ∧ ∀ x ∈ σ.timer_queue, x.id < σ.next_id

/-- The entry `e` was handed out earlier and precedes everything in the queue. -/
def precedes (e : entry) (σ : State) : Prop :=
  e.id < σ.next_id ∧ ∀ x ∈ σ.timer_queue, before e x

/-- What a branch of the loop does to the queue, as far as the order of execution goes:
the head stays, the queue stays in order, and every entry that preceded everything before
still does. -/
structure keeps (e : entry) (σ σ1 : State) : Prop where
  head : σ1.timer_queue.head? = some e
  ok : queue_ok σ1
  prec : ∀ e0, precedes e0 σ → e0.time ≤ e.time → precedes e0 σ1

/-- Successive calls of `poll`, one per sensor line: the final window and the values
returned by the calls, in order. -/
def poll_seq : List (Option (List Char)) → List ℚ → Except Error (List ℚ × List ℚ)
  | [], w => .ok (w, [])
  | l :: ls, w =>
    match ambient_light_poll l w with
    | .error e => .error e
    | .ok (w1, r) =>
      match poll_seq ls w1 with
      | .error e => .error e
      | .ok (w2, rs) => .ok (w2, r :: rs)

/-- The number of fade actions after which the target is first reached according to the
specification: 1 when the step `s = d / n` is zero, `⌈d / s⌉` otherwise. -/
def hit_count (d : Int) (n : Nat) : Nat :=
  if d / (n : Int) = 0 then 1 else ((d + d / (n : Int) - 1) / (d / (n : Int))).toNat

/-- A poll in a dark room (sensor line `(0,0)`) with the display already at brightness 7. -/
def dim_poll : Input := { now := fun _ => 0, line := some "(0,0)".toList, brightness := some 7 }

/-- The default configuration with three fade steps instead of ten. -/
def thirds : configuration := { config with fade_steps := 3 }

/-- The fade entries of lines 256-262 as a list: the `j`-th of `k` rounds, started at index
`i` with the serial number `id`. -/
def fade_entries (cfg : configuration) (now : Nat → Int) (i id k : Nat) : List entry :=
  (List.range k).map (fun j : Nat =>
    ⟨now (i + j) + ms ((i + j) * cfg.fade_time / cfg.fade_steps),
     action_type.BACKLIGHT_FADE, id + j⟩)

/-- The number of poll entries in a queue. -/
def polls (q : List entry) : Nat :=
  q.countP (fun e => decide (e.action = action_type.BACKLIGHT_POLL))

/-- Lines 233-280: an iteration up to, but not including, the `erase` of line 281. -/
def loop_body (cfg : configuration) (logd : ℚ → ℚ) (inp : Input) (σ : State) :
    Except Error State :=
  match σ.timer_queue with
  | [] => .error .empty_queue
  | e :: _ =>
    match e.action with
    | .BACKLIGHT_POLL => poll_branch cfg logd inp σ
    | .BACKLIGHT_FADE => .ok (fade_branch cfg inp σ)

/-- How the process ends once `loop()` has failed. -/
inductive Ending where
  | returned (status : Nat) (message_logged : Bool)  -- `main` returns after its `catch`
  | terminate_called                                  -- exception not caught by `main`
  | fault                                             -- no exception: undefined behaviour
  deriving DecidableEq, Repr

/-- Lines 286-300: `main` catches `backlight_adjuster::exception` only, logs its message
and returns 1.  An `ambient_light::exception` or an exception of `std::stoi` passes the
handler, and a failed `assert` calls `abort`. -/
def main (err : Error) : Ending :=
  match err with
  | .display_query => .returned 1 true
  | .sensor_read => .terminate_called
  | .bad_reading => .terminate_called
  | .division_by_zero => .fault
  | .empty_queue => .fault

/-- What an emplace does to the queue when the new entry is not earlier than the head:
the head stays, the old entries stay in their order, one entry with the next serial number
is added. -/
structure grows (e : entry) (σ σ1 : State) : Prop where
  head : σ1.timer_queue.head? = some e
  sub : σ.timer_queue.Sublist σ1.timer_queue
  ids : σ.next_id ≤ σ1.next_id
  perm : (σ1.timer_queue.map entry.id).Perm
    (σ.timer_queue.map entry.id ++ List.range' σ.next_id (σ1.next_id - σ.next_id))

/-! # Lemmas -/

theorem wrap32_of_in (x : Int) (h : in_i32 x) : wrap32 x = x := by
  unfold in_i32 at h; unfold wrap32; omega

theorem wrap32_in (x : Int) : in_i32 (wrap32 x) := by
  unfold in_i32 wrap32; omega

theorem wrap32_add_wrap (a b : Int) : wrap32 (wrap32 a + b) = wrap32 (a + b) := by
  unfold wrap32; omega

/-! ### The queue and the fade actions -/

theorem emplace_length (t : Int) (a : action_type) (id : Nat) (q : List entry) :
    (emplace t a id q).length = q.length + 1 := by
  induction q with
  | nil => simp [emplace]
  | cons e q ih =>
    unfold emplace
    split <;> simp [ih]

theorem mem_emplace (t : Int) (a : action_type) (id : Nat) (q : List entry) (x : entry) :
    x ∈ emplace t a id q ↔ x = ⟨t, a, id⟩ ∨ x ∈ q := by
  induction q with
  | nil => simp [emplace]
  | cons e q ih =>
    unfold emplace
    split
    · simp
    · simp [ih]; tauto

theorem all_fade_emplace (t : Int) (id : Nat) (q : List entry) (h : all_fade q) :
    all_fade (emplace t action_type.BACKLIGHT_FADE id q) := by
  intro x hx
  rcases (mem_emplace _ _ _ _ _).1 hx with rfl | hx
  · rfl
  · exact h x hx

theorem all_fade_tail (q : List entry) (h : all_fade q) : all_fade q.tail :=
  fun x hx => h x (List.mem_of_mem_tail hx)

/-- One iteration whose head is a fade action. -/
theorem step_fade (cfg : configuration) (logd : ℚ → ℚ) (inp : Input) (σ : State)
    (e : entry) (q : List entry) (hq : σ.timer_queue = e :: q)
    (he : e.action = action_type.BACKLIGHT_FADE) :
    step cfg logd inp σ =
      .ok { fade_branch cfg inp σ with timer_queue := (fade_branch cfg inp σ).timer_queue.tail } := by
  unfold step
  rw [hq]
  simp only [he]

theorem fade_branch_fields (cfg : configuration) (inp : Input) (σ : State) :
    (fade_branch cfg inp σ).curr_bright = fade_value σ.curr_bright σ.new_bright σ.step_size ∧
    (fade_branch cfg inp σ).new_bright = σ.new_bright ∧
    (fade_branch cfg inp σ).step_size = σ.step_size ∧
    (fade_branch cfg inp σ).values_ = σ.values_ ∧
    (fade_branch cfg inp σ).max_bright_ = σ.max_bright_ ∧
    (fade_branch cfg inp σ).display =
      σ.display ++ [fade_value σ.curr_bright σ.new_bright σ.step_size] := by
  unfold fade_branch
  simp only
  split <;> simp [State.emplace]

theorem fade_branch_queue (cfg : configuration) (inp : Input) (σ : State) :
    (fade_branch cfg inp σ).timer_queue =
      if fade_value σ.curr_bright σ.new_bright σ.step_size ≠ σ.new_bright then
        emplace (inp.now 0 + ms (cfg.fade_time / cfg.fade_steps)) action_type.BACKLIGHT_FADE
          σ.next_id σ.timer_queue
      else σ.timer_queue := by
  unfold fade_branch
  simp only
  split <;> simp [State.emplace]

theorem run_append (cfg : configuration) (logd : ℚ → ℚ) (xs ys : List Input) (σ σ1 : State)
    (h : run cfg logd xs σ = .ok σ1) : run cfg logd (xs ++ ys) σ = run cfg logd ys σ1 := by
  induction xs generalizing σ with
  | nil => simp [run] at h; subst h; rfl
  | cons x xs ih =>
    simp only [List.cons_append, run] at h ⊢
    cases hs : step cfg logd x σ with
    | error e => rw [hs] at h; simp at h
    | ok σ2 => rw [hs] at h; simp only at h ⊢; exact ih σ2 h

theorem fading_step (cfg : configuration) (logd : ℚ → ℚ) (inp : Input) (σ : State)
    (T s : Int) (p : Nat) (h : fading σ T s (p + 1)) :
    ∃ σ1, step cfg logd inp σ = .ok σ1 ∧
      σ1.curr_bright = fade_value σ.curr_bright T s ∧
      σ1.display = σ.display ++ [fade_value σ.curr_bright T s] ∧
      fading σ1 T s (if fade_value σ.curr_bright T s ≠ T then p + 1 else p) := by
  obtain ⟨hT, hs, hf, hp⟩ := h
  cases hq : σ.timer_queue with
  | nil => rw [hq] at hp; simp at hp
  | cons e q =>
    have he : e.action = action_type.BACKLIGHT_FADE := hf e (by rw [hq]; simp)
    refine ⟨_, step_fade cfg logd inp σ e q hq he, ?_, ?_, ?_⟩
    · simp [(fade_branch_fields cfg inp σ).1, hT, hs]
    · simp [(fade_branch_fields cfg inp σ).2.2.2.2.2, hT, hs]
    · refine ⟨?_, ?_, ?_, ?_⟩
      · simp [(fade_branch_fields cfg inp σ).2.1, hT]
      · simp [(fade_branch_fields cfg inp σ).2.2.1, hs]
      · simp only [fade_branch_queue]
        apply all_fade_tail
        split
        · exact all_fade_emplace _ _ _ hf
        · exact hf
      · simp only [fade_branch_queue, hT, hs, List.length_tail]
        split
        · rw [emplace_length, hp]; simp
        · rw [hp]; simp

/-- A fade cycle: when the `(j+1)`-th wrapped addition of the step reaches or passes the
target (or the step is zero), at most `j+1` fade actions bring `curr_bright` to the target,
and one queued entry is used up. -/
theorem fade_cycle (cfg : configuration) (logd : ℚ → ℚ) (T s : Int) (p : Nat) :
    ∀ (j : Nat) (c : Int), (s = 0 ∨ T ≤ wrap32 (c + ((j : Int) + 1) * s)) →
      ∃ k, 1 ≤ k ∧ k ≤ j + 1 ∧ ∀ σ : State, fading σ T s (p + 1) → σ.curr_bright = c →
        ∀ ins : List Input, ins.length = k →
          ∃ σ1, run cfg logd ins σ = .ok σ1 ∧ σ1.curr_bright = T ∧ fading σ1 T s p := by
  intro j
  induction j with
  | zero =>
    intro c hit
    refine ⟨1, le_refl _, le_refl _, ?_⟩
    intro σ hσ hcur ins hins
    subst hcur
    obtain ⟨inp, rfl⟩ := List.length_eq_one.1 hins
    obtain ⟨σ1, h1, hc, _, hf⟩ := fading_step cfg logd inp σ T s p hσ
    have hv : fade_value σ.curr_bright T s = T := by
      unfold fade_value
      simp only
      split
      · rfl
      · rename_i hno
        push_neg at hno
        rcases hit with h0 | h0
        · exact absurd h0 hno.1
        · simp at h0; omega
    refine ⟨σ1, by simp [run, h1], by rw [hc, hv], ?_⟩
    simpa [hv] using hf
  | succ j ih =>
    intro c hit
    by_cases hv : fade_value c T s = T
    · refine ⟨1, le_refl _, by omega, ?_⟩
      intro σ hσ hcur ins hins
      obtain ⟨inp, rfl⟩ := List.length_eq_one.1 hins
      obtain ⟨σ1, h1, hc, _, hf⟩ := fading_step cfg logd inp σ T s p hσ
      rw [hcur] at hc hf
      refine ⟨σ1, by simp [run, h1], by rw [hc, hv], ?_⟩
      simpa [hv] using hf
    · have hs0 : s ≠ 0 := by
        intro h0; apply hv; unfold fade_value; simp [h0]
      have hval : fade_value c T s = wrap32 (c + s) := by
        unfold fade_value at hv ⊢
        simp only at hv ⊢
        split
        · rename_i h; rw [if_pos h] at hv; exact absurd rfl hv
        · rfl
      have hit1 : s = 0 ∨ T ≤ wrap32 (wrap32 (c + s) + ((j : Int) + 1) * s) := by
        right
        rcases hit with h0 | h0
        · exact absurd h0 hs0
        · rw [wrap32_add_wrap]
          have : c + s + ((j : Int) + 1) * s = c + (((j + 1 : Nat) : Int) + 1) * s := by
            push_cast; ring
          rw [this]; exact h0
      obtain ⟨k, hk1, hk2, hk⟩ := ih (wrap32 (c + s)) hit1
      refine ⟨k + 1, by omega, by omega, ?_⟩
      intro σ hσ hcur ins hins
      cases ins with
      | nil => simp at hins
      | cons inp rest =>
        obtain ⟨σ1, h1, hc, _, hf⟩ := fading_step cfg logd inp σ T s p hσ
        rw [hcur] at hc hf
        have hf1 : fading σ1 T s (p + 1) := by simpa [hv] using hf
        obtain ⟨σ2, h2, hc2, hf2⟩ := hk σ1 hf1 (by rw [hc, hval]) rest (by simpa using hins)
        exact ⟨σ2, by simp [run, h1, h2], hc2, hf2⟩

/-! ### Rounding to the nearest integer -/

theorem rne_bounds (x : ℚ) : x - 1 / 2 ≤ rne x ∧ (rne x : ℚ) ≤ x + 1 / 2 := by
  have h1 := Int.floor_le x
  have h2 := Int.lt_floor_add_one x
  unfold rne
  split_ifs with a b c
  · constructor <;> linarith
  · constructor <;> push_cast <;> linarith
  · constructor <;> linarith
  · constructor <;> push_cast <;> linarith

theorem rne_eq_of_near (x : ℚ) (m : Int) (h1 : (m : ℚ) - 1 / 2 < x) (h2 : x < m + 1 / 2) :
    rne x = m := by
  have hb := rne_bounds x
  have h3 : ((rne x : Int) : ℚ) < ((m + 1 : Int) : ℚ) := by push_cast; linarith [hb.2]
  have h4 : ((m - 1 : Int) : ℚ) < ((rne x : Int) : ℚ) := by push_cast; linarith [hb.1]
  have h5 := Int.cast_lt.1 h3
  have h6 := Int.cast_lt.1 h4
  omega

theorem rne_int (n : Int) : rne (n : ℚ) = n :=
  rne_eq_of_near _ n (by linarith) (by linarith)

theorem rne_mono {x y : ℚ} (h : x ≤ y) : rne x ≤ rne y := by
  by_contra hc
  push_neg at hc
  have hx := (rne_bounds x).2
  have hy := (rne_bounds y).1
  have h1 : ((rne y + 1 : Int) : ℚ) ≤ ((rne x : Int) : ℚ) := Int.cast_le.2 (by omega)
  push_cast at h1
  have hxy : x = y := le_antisymm h (by linarith)
  rw [hxy] at hc
  exact lt_irrefl _ hc

theorem le_rne {n : Int} {x : ℚ} (h : (n : ℚ) ≤ x) : n ≤ rne x := by
  have := rne_mono h
  rwa [rne_int] at this

theorem rne_le {n : Int} {x : ℚ} (h : x ≤ (n : ℚ)) : rne x ≤ n := by
  have := rne_mono h
  rwa [rne_int] at this

theorem rne_neg (x : ℚ) : rne (-x) = -rne x := by
  by_cases ht : x - ⌊x⌋ = 1 / 2
  · -- a tie: both sides pick the even neighbour
    have hx : x = (⌊x⌋ : ℚ) + 1 / 2 := by linarith
    have hf : ⌊-x⌋ = -⌊x⌋ - 1 := by
      rw [Int.floor_eq_iff]
      constructor
      · push_cast; linarith
      · push_cast; linarith
    have hfr : -x - ((⌊-x⌋ : Int) : ℚ) = 1 / 2 := by rw [hf]; push_cast; linarith
    have e1 : rne x = if ⌊x⌋ % 2 = 0 then ⌊x⌋ else ⌊x⌋ + 1 := by
      unfold rne
      rw [if_neg (by rw [ht]; exact lt_irrefl _), if_neg (by rw [ht]; exact lt_irrefl _)]
    have e2 : rne (-x) = if ⌊-x⌋ % 2 = 0 then ⌊-x⌋ else ⌊-x⌋ + 1 := by
      unfold rne
      rw [if_neg (by rw [hfr]; exact lt_irrefl _), if_neg (by rw [hfr]; exact lt_irrefl _)]
    rw [e1, e2, hf]
    split_ifs <;> omega
  · have hb := rne_bounds x
    have h1 := Int.floor_le x
    have h2 := Int.lt_floor_add_one x
    have hne : (rne x : ℚ) - 1 / 2 < x ∧ x < rne x + 1 / 2 := by
      unfold rne
      split_ifs with a b c
      · constructor <;> linarith
      · constructor <;> push_cast <;> linarith
      · exfalso; apply ht; push_neg at a b; linarith
      · exfalso; apply ht; push_neg at a b; linarith
    apply rne_eq_of_near
    · push_cast; linarith [hne.2]
    · push_cast; linarith [hne.1]

/-! ### Rounding to binary64 -/

theorem ulp_exp_neg (q : ℚ) : ulp_exp (-q) = ulp_exp q := by
  unfold ulp_exp; rw [abs_neg]

theorem rnd_neg (q : ℚ) : rnd (-q) = -rnd q := by
  unfold rnd
  rw [ulp_exp_neg, neg_div, rne_neg]
  push_cast; ring

theorem rnd_zero : rnd 0 = 0 := by
  unfold rnd; simp [rne_int 0, show rne (0 : ℚ) = 0 from by simpa using rne_int 0]

theorem two_zpow_pos (e : Int) : (0 : ℚ) < 2 ^ e := zpow_pos (by norm_num) e

theorem rnd_nonneg {q : ℚ} (h : 0 ≤ q) : 0 ≤ rnd q := by
  unfold rnd
  have h1 : ((0 : Int) : ℚ) ≤ q / 2 ^ ulp_exp q := by
    simpa using div_nonneg h (le_of_lt (two_zpow_pos _))
  have h2 : (0 : ℚ) ≤ (rne (q / 2 ^ ulp_exp q) : ℚ) := by exact_mod_cast le_rne h1
  exact mul_nonneg h2 (le_of_lt (two_zpow_pos _))

/-- The binade of a nonzero rational determines the exponent of its last place. -/
theorem ulp_exp_eq (q : ℚ) (k : Int) (h1 : (2 : ℚ) ^ k ≤ |q|) (h2 : |q| < 2 ^ (k + 1)) :
    ulp_exp q = max (k - 52) (-1074) := by
  have hpos : 0 < |q| := lt_of_lt_of_le (two_zpow_pos k) h1
  have a : k ≤ Int.log 2 |q| := by
    rw [← Int.zpow_le_iff_le_log (by norm_num) hpos]; exact_mod_cast h1
  have b : Int.log 2 |q| < k + 1 := by
    rw [← Int.lt_zpow_iff_log_lt (by norm_num) hpos]; exact_mod_cast h2
  have : Int.log 2 |q| = k := by omega
  unfold ulp_exp; rw [this]

/-- A rounding certificate: `m * 2^e` is the binary64 value nearest to `q`. -/
theorem rnd_eq (q : ℚ) (k m : Int) (h1 : (2 : ℚ) ^ k ≤ |q|) (h2 : |q| < 2 ^ (k + 1))
    (hk : -1022 ≤ k) (h3 : (m : ℚ) - 1 / 2 < q / 2 ^ (k - 52))
    (h4 : q / 2 ^ (k - 52) < m + 1 / 2) : rnd q = m * 2 ^ (k - 52) := by
  have he : ulp_exp q = k - 52 := by
    rw [ulp_exp_eq q k h1 h2]; omega
  unfold rnd
  rw [he, rne_eq_of_near _ m h3 h4]

theorem ulp_exp_mono {x y : ℚ} (hx : 0 < x) (h : x ≤ y) : ulp_exp x ≤ ulp_exp y := by
  unfold ulp_exp
  have hy : 0 < y := lt_of_lt_of_le hx h
  rw [abs_of_pos hx, abs_of_pos hy]
  have := Int.log_mono_right (b := 2) hx h
  omega

theorem lt_two_zpow_ulp (x : ℚ) : |x| < 2 ^ (ulp_exp x + 53) := by
  have h := Int.lt_zpow_succ_log_self (b := 2) (by norm_num) |x|
  refine lt_of_lt_of_le h ?_
  have : Int.log 2 |x| + 1 ≤ ulp_exp x + 53 := by unfold ulp_exp; omega
  exact_mod_cast zpow_le_zpow_right₀ (by norm_num : (1 : ℚ) ≤ 2) this

theorem two_zpow_ulp_le {x : ℚ} (hx : x ≠ 0) (he : -1074 < ulp_exp x) :
    (2 : ℚ) ^ (ulp_exp x + 52) ≤ |x| := by
  have hpos : 0 < |x| := abs_pos.2 hx
  have h := Int.zpow_log_le_self (b := 2) (by norm_num) hpos
  have : ulp_exp x + 52 = Int.log 2 |x| := by unfold ulp_exp at he ⊢; omega
  rw [this]; exact_mod_cast h

theorem rnd_le_two_zpow {x : ℚ} (hx : 0 ≤ x) : rnd x ≤ 2 ^ (ulp_exp x + 53) := by
  have h := lt_two_zpow_ulp x
  rw [abs_of_nonneg hx] at h
  have hp := two_zpow_pos (ulp_exp x)
  have h1 : x / 2 ^ ulp_exp x ≤ (((2 : Int) ^ 53 : Int) : ℚ) := by
    rw [div_le_iff₀ hp]
    have : (((2 : Int) ^ 53 : Int) : ℚ) * 2 ^ ulp_exp x = 2 ^ (ulp_exp x + 53) := by
      rw [zpow_add₀ (by norm_num : (2 : ℚ) ≠ 0)]; push_cast; ring
    rw [this]; exact le_of_lt h
  have h2 := rne_le h1
  unfold rnd
  have h3 : ((rne (x / 2 ^ ulp_exp x) : Int) : ℚ) ≤ (((2 : Int) ^ 53 : Int) : ℚ) := by
    exact_mod_cast h2
  calc (rne (x / 2 ^ ulp_exp x) : ℚ) * 2 ^ ulp_exp x
      ≤ (((2 : Int) ^ 53 : Int) : ℚ) * 2 ^ ulp_exp x := mul_le_mul_of_nonneg_right h3 (le_of_lt hp)
    _ = 2 ^ (ulp_exp x + 53) := by
      rw [zpow_add₀ (by norm_num : (2 : ℚ) ≠ 0)]; push_cast; ring

theorem two_zpow_le_rnd {x : ℚ} (hx : 0 < x) (he : -1074 < ulp_exp x) :
    (2 : ℚ) ^ (ulp_exp x + 52) ≤ rnd x := by
  have h := two_zpow_ulp_le (ne_of_gt hx) he
  rw [abs_of_pos hx] at h
  have hp := two_zpow_pos (ulp_exp x)
  have h1 : (((2 : Int) ^ 52 : Int) : ℚ) ≤ x / 2 ^ ulp_exp x := by
    rw [le_div_iff₀ hp]
    have : (((2 : Int) ^ 52 : Int) : ℚ) * 2 ^ ulp_exp x = 2 ^ (ulp_exp x + 52) := by
      rw [zpow_add₀ (by norm_num : (2 : ℚ) ≠ 0)]; push_cast; ring
    rw [this]; exact h
  have h2 := le_rne h1
  unfold rnd
  have h3 : (((2 : Int) ^ 52 : Int) : ℚ) ≤ ((rne (x / 2 ^ ulp_exp x) : Int) : ℚ) := by
    exact_mod_cast h2
  calc (2 : ℚ) ^ (ulp_exp x + 52) = (((2 : Int) ^ 52 : Int) : ℚ) * 2 ^ ulp_exp x := by
        rw [zpow_add₀ (by norm_num : (2 : ℚ) ≠ 0)]; push_cast; ring
    _ ≤ (rne (x / 2 ^ ulp_exp x) : ℚ) * 2 ^ ulp_exp x :=
        mul_le_mul_of_nonneg_right h3 (le_of_lt hp)

theorem rnd_mono_pos {x y : ℚ} (hx : 0 < x) (h : x ≤ y) : rnd x ≤ rnd y := by
  have hy : 0 < y := lt_of_lt_of_le hx h
  have he := ulp_exp_mono hx h
  rcases eq_or_lt_of_le he with heq | hlt
  · unfold rnd
    rw [heq]
    have hp := two_zpow_pos (ulp_exp y)
    have h1 : x / 2 ^ ulp_exp y ≤ y / 2 ^ ulp_exp y := div_le_div_of_nonneg_right h (le_of_lt hp)
    have h2 : ((rne (x / 2 ^ ulp_exp y) : Int) : ℚ) ≤ ((rne (y / 2 ^ ulp_exp y) : Int) : ℚ) := by
      exact_mod_cast rne_mono h1
    exact mul_le_mul_of_nonneg_right h2 (le_of_lt hp)
  · have h1 := rnd_le_two_zpow (le_of_lt hx)
    have hey : -1074 < ulp_exp y := by
      have : -1074 ≤ ulp_exp x := by unfold ulp_exp; omega
      omega
    have h2 := two_zpow_le_rnd hy hey
    have h3 : (2 : ℚ) ^ (ulp_exp x + 53) ≤ 2 ^ (ulp_exp y + 52) :=
      zpow_le_zpow_right₀ (by norm_num) (by omega)
    linarith

/-- Rounding to binary64 is monotone. -/
theorem rnd_mono {x y : ℚ} (h : x ≤ y) : rnd x ≤ rnd y := by
  rcases lt_trichotomy x 0 with hx | hx | hx
  · rcases lt_or_le y 0 with hy | hy
    · have := rnd_mono_pos (neg_pos.2 hy) (neg_le_neg h)
      rw [rnd_neg, rnd_neg] at this
      linarith
    · have h1 := rnd_nonneg (le_of_lt (neg_pos.2 hx))
      rw [rnd_neg] at h1
      have h2 := rnd_nonneg hy
      linarith
  · subst hx
    rw [rnd_zero]; exact rnd_nonneg h
  · exact rnd_mono_pos hx h

/-- Binary64 values are fixed points of the rounding. -/
theorem rnd_exact (m e : Int) (hm : |m| < 2 ^ 53) (he : -1074 ≤ e) :
    rnd ((m : ℚ) * 2 ^ e) = (m : ℚ) * 2 ^ e := by
  by_cases h0 : m = 0
  · subst h0; simp [rnd_zero]
  have hq : |(m : ℚ) * 2 ^ e| < 2 ^ (e + 53) := by
    rw [abs_mul, abs_of_pos (two_zpow_pos e), zpow_add₀ (by norm_num : (2 : ℚ) ≠ 0), mul_comm]
    apply mul_lt_mul_of_pos_left _ (two_zpow_pos e)
    have : ((|m| : Int) : ℚ) < (((2 : Int) ^ 53 : Int) : ℚ) := Int.cast_lt.2 hm
    push_cast at this
    exact_mod_cast this
  have hne : (m : ℚ) * 2 ^ e ≠ 0 :=
    mul_ne_zero (Int.cast_ne_zero.2 h0) (ne_of_gt (two_zpow_pos e))
  have hlog : Int.log 2 |(m : ℚ) * 2 ^ e| < e + 53 := by
    rw [← Int.lt_zpow_iff_log_lt (by norm_num) (abs_pos.2 hne)]; exact_mod_cast hq
  have hle : ulp_exp ((m : ℚ) * 2 ^ e) ≤ e := by unfold ulp_exp; omega
  unfold rnd
  generalize ulp_exp ((m : ℚ) * 2 ^ e) = u at hle
  obtain ⟨d, hd⟩ := Int.le.dest hle
  have hpu := two_zpow_pos u
  have he2 : (2 : ℚ) ^ e = 2 ^ u * 2 ^ d := by
    rw [← hd, zpow_add₀ (by norm_num : (2 : ℚ) ≠ 0), zpow_natCast]
  have hdiv : (m : ℚ) * 2 ^ e / 2 ^ u = ((m * 2 ^ d : Int) : ℚ) := by
    rw [he2]; push_cast; field_simp; ring
  rw [hdiv, rne_int, he2]
  push_cast; ring

/-- Integers below `2^53` in magnitude are binary64 values. -/
theorem rnd_int (n : Int) (h : |n| < 2 ^ 53) : rnd (n : ℚ) = n := by
  have := rnd_exact n 0 h (by norm_num)
  simpa using this

/-- In the increasing direction, when the difference does not overflow, line 255 yields the
quotient truncated toward zero. -/
theorem step_size_of_up (n : Nat) (c t : Int) (hn : 1 ≤ n) (h1 : c ≤ t)
    (h2 : t - c < 2147483648) : step_size_of n c t = (t - c) / (n : Int) := by
  unfold step_size_of
  have hd : wrap32 (t - c) = t - c := wrap32_of_in _ ⟨by omega, h2⟩
  rw [hd]
  have hs : to_size (t - c) = (t - c).toNat := by
    unfold to_size
    rw [Int.emod_eq_of_lt (by omega) (by omega)]
  rw [hs]
  have hq : (((t - c).toNat / n : Nat) : Int) = (t - c) / (n : Int) := by
    rw [Int.ofNat_ediv, Int.toNat_of_nonneg (by omega)]
  rw [hq]
  apply wrap32_of_in
  have hn0 : (0 : Int) < n := by exact_mod_cast hn
  constructor
  · have := Int.ediv_nonneg (show 0 ≤ t - c by omega) (le_of_lt hn0)
    omega
  · have := Int.ediv_le_self (n : Int) (show 0 ≤ t - c by omega)
    omega

/-- In the increasing direction the `m`-th addition of the step, `m = ⌈d / s⌉`, reaches or
passes the target without leaving the `int32_t` range. -/
theorem up_hit (c T s : Int) (hc : in_i32 c) (hlt : c < T) (hs : 0 < s)
    (hov : T + s < 2147483648) :
    1 ≤ (T - c + s - 1) / s ∧ T ≤ wrap32 (c + ((T - c + s - 1) / s) * s) := by
  have h1 : (T - c + s - 1) / s * s ≤ T - c + s - 1 := Int.ediv_mul_le _ (ne_of_gt hs)
  have h2 : T - c + s - 1 < ((T - c + s - 1) / s + 1) * s :=
    Int.lt_ediv_add_one_mul_self _ hs
  have h3 : 1 ≤ (T - c + s - 1) / s := by
    rw [Int.le_ediv_iff_mul_le hs]; omega
  refine ⟨h3, ?_⟩
  have h4 : T - c ≤ (T - c + s - 1) / s * s := by
    have : ((T - c + s - 1) / s + 1) * s = (T - c + s - 1) / s * s + s := by ring
    omega
  rw [wrap32_of_in]
  · omega
  · unfold in_i32 at hc ⊢; omega

theorem rnd_one : rnd 1 = 1 := by
  have := rnd_int 1 (by norm_num)
  simpa using this

theorem double_to_int_zero : double_to_int 0 = 0 := by
  unfold double_to_int; simp

/-- With `log(1) = 0` the curve maps a dark reading to brightness 0. -/
theorem desired_brightness_dark (logd : ℚ → ℚ) (h1 : logd 1 = 0) (m : Int) :
    desired_brightness logd m 0 = 0 := by
  unfold desired_brightness fadd fmul fdiv
  simp [rnd_zero, rnd_one, h1, double_to_int_zero]

theorem ambient_reading_dark : ambient_reading "(0,0)".toList = some 0 := by
  have hs : stoi ((("(0,0)".toList).drop 1).take
      (to_size ((("(0,0)".toList).indexOf ',' : Nat) - 1))) = some 0 := by decide
  unfold ambient_reading
  rw [if_neg (by decide)]
  simp only [hs]
  simp [fdiv, rnd_zero]

theorem window_mean_zero : window_mean (List.replicate 10 0) = 0 := by
  simp [window_mean, List.replicate, fadd, fdiv, rnd_zero]

/-- One iteration whose head is a poll action that succeeds. -/
theorem step_poll (cfg : configuration) (logd : ℚ → ℚ) (inp : Input) (σ σ1 : State)
    (e : entry) (q : List entry) (hq : σ.timer_queue = e :: q)
    (he : e.action = action_type.BACKLIGHT_POLL)
    (hp : poll_branch cfg logd inp σ = .ok σ1) :
    step cfg logd inp σ = .ok { σ1 with timer_queue := σ1.timer_queue.tail } := by
  unfold step
  rw [hq]
  simp only [he, hp]

/-- The poll branch when the target differs from the brightness read. -/
theorem poll_branch_fade (cfg : configuration) (logd : ℚ → ℚ) (inp : Input) (σ : State)
    (vs : List ℚ) (a : ℚ) (cb : Int)
    (hp : ambient_light_poll inp.line σ.values_ = .ok (vs, a))
    (hb : inp.brightness = some cb)
    (hne : cb ≠ max (desired_brightness logd σ.max_bright_ a) cfg.min_bright)
    (hn : cfg.fade_steps ≠ 0) :
    poll_branch cfg logd inp σ =
      .ok ((schedule_fade cfg inp.now 0 cfg.fade_steps
        { σ with values_ := vs, curr_bright := cb,
                 new_bright := max (desired_brightness logd σ.max_bright_ a) cfg.min_bright,
                 step_size := step_size_of cfg.fade_steps cb
                   (max (desired_brightness logd σ.max_bright_ a) cfg.min_bright) }).emplace
        (inp.now cfg.fade_steps + ms cfg.poll_time) action_type.BACKLIGHT_POLL) := by
  unfold poll_branch
  simp only [hp, hb]
  rw [if_pos hne, if_neg hn]

/-- The poll branch when the target equals the brightness read. -/
theorem poll_branch_same (cfg : configuration) (logd : ℚ → ℚ) (inp : Input) (σ : State)
    (vs : List ℚ) (a : ℚ) (cb : Int)
    (hp : ambient_light_poll inp.line σ.values_ = .ok (vs, a))
    (hb : inp.brightness = some cb)
    (he : cb = max (desired_brightness logd σ.max_bright_ a) cfg.min_bright) :
    poll_branch cfg logd inp σ =
      .ok (State.emplace
        { σ with values_ := vs, curr_bright := cb,
                 new_bright := max (desired_brightness logd σ.max_bright_ a) cfg.min_bright }
        (inp.now 0 + ms cfg.poll_time) action_type.BACKLIGHT_POLL) := by
  unfold poll_branch
  simp only [hp, hb]
  rw [if_neg (by simpa using he)]

/-- The dark-room poll, for every library logarithm with `log(1) = 0`: target 7, the
brightness 100 read from the display, and the fade of line 255-262 scheduled. -/
theorem dark_first_step (logd : ℚ → ℚ) (h1 : logd 1 = 0) :
    step config logd dark_poll dark_state = .ok dark_after_poll := by
  have hp : ambient_light_poll dark_poll.line dark_state.values_
      = .ok (List.replicate 10 0, 0) := by
    unfold ambient_light_poll read_value dark_poll dark_state initial
    simp only [ambient_reading_dark]
    have : List.drop 1 (List.replicate 10 (0 : ℚ)) ++ [0] = List.replicate 10 0 := by
      simp [List.replicate]
    rw [this, window_mean_zero]
  have hnb : max (desired_brightness logd dark_state.max_bright_ 0) config.min_bright = 7 := by
    rw [desired_brightness_dark logd h1]; decide
  have e1 := poll_branch_fade config logd dark_poll dark_state _ _ 100 hp rfl
    (by rw [hnb]; decide) (by decide)
  rw [hnb] at e1
  exact step_poll config logd dark_poll dark_state _ _ [] rfl rfl e1

theorem dark_run (logd : ℚ → ℚ) (h1 : logd 1 = 0) :
    ∃ σ2, run config logd [dark_poll, quiet 0] dark_state = .ok σ2 ∧
      σ2.new_bright = 7 ∧ σ2.display = [-1717986828] := by
  simp only [run, dark_first_step logd h1]
  refine ⟨_, rfl, ?_, ?_⟩
  · decide
  · decide

/-- A rounding certificate for a positive number (see `rnd_eq`). -/
theorem rnd_eq_pos (q : ℚ) (k m : Int) (h1 : (2 : ℚ) ^ k ≤ q) (h2 : q < 2 ^ (k + 1))
    (hk : -1022 ≤ k) (h3 : (m : ℚ) - 1 / 2 < q / 2 ^ (k - 52))
    (h4 : q / 2 ^ (k - 52) < m + 1 / 2) : rnd q = m * 2 ^ (k - 52) := by
  have hq : 0 < q := lt_of_lt_of_le (two_zpow_pos k) h1
  exact rnd_eq q k m (by rwa [abs_of_pos hq]) (by rwa [abs_of_pos hq]) hk h3 h4

/-- At full ambient light the argument of the logarithm is exactly 101. -/
theorem desired_brightness_full (logd : ℚ → ℚ) (m : Int) :
    desired_brightness logd m 1 =
      double_to_int (fdiv (fmul (m : ℚ) (logd 101)) (logd 101)) := by
  have h100 : rnd 100 = 100 := by simpa using rnd_int 100 (by norm_num)
  have h101 : rnd 101 = 101 := by simpa using rnd_int 101 (by norm_num)
  unfold desired_brightness
  have : fadd 1 (fmul 100 1) = 101 := by
    unfold fadd fmul; rw [mul_one, h100]; norm_num [h101]
  rw [this]

/-- With the correctly rounded `log(101)`, maximum brightness 29 and full ambient light
give 28: the product `29 * log(101)` is rounded down, the quotient is the binary64 value
just below 29, and the conversion to `int` discards its fraction. -/
theorem desired_brightness_29 (logd : ℚ → ℚ) (hL : logd 101 = 5196163759979057 / 2 ^ 50) :
    desired_brightness logd 29 1 = 28 := by
  rw [desired_brightness_full, hL]
  have hm : fmul ((29 : Int) : ℚ) (5196163759979057 / 2 ^ 50) = 4709023407481020 * 2 ^ (-45 : Int) := by
    unfold fmul
    have := rnd_eq_pos (((29 : Int) : ℚ) * (5196163759979057 / 2 ^ 50)) 7 4709023407481020
      (by norm_num) (by norm_num) (by norm_num) (by norm_num) (by norm_num)
    simpa using this
  rw [hm]
  have hd : fdiv (4709023407481020 * 2 ^ (-45 : Int)) (5196163759979057 / 2 ^ 50)
      = 8162774324609023 * 2 ^ (-48 : Int) := by
    unfold fdiv
    have := rnd_eq_pos ((4709023407481020 * 2 ^ (-45 : Int)) / (5196163759979057 / 2 ^ 50)) 4
      8162774324609023 (by norm_num) (by norm_num) (by norm_num) (by norm_num) (by norm_num)
    simpa using this
  rw [hd]
  unfold double_to_int
  rw [if_pos (by norm_num)]
  rw [Int.floor_eq_iff]
  constructor <;> norm_num

theorem double_to_int_mono {x y : ℚ} (h : x ≤ y) : double_to_int x ≤ double_to_int y := by
  unfold double_to_int
  split_ifs with hx hy hy
  · exact Int.floor_mono h
  · exact absurd (le_trans hx h) hy
  · have h1 : ⌈x⌉ ≤ 0 := Int.ceil_le.2 (by push_neg at hx; simpa using le_of_lt hx)
    have h2 : 0 ≤ ⌊y⌋ := Int.floor_nonneg.2 hy
    omega
  · exact Int.ceil_mono h

/-- The argument handed to the logarithm lies in `[1, 101]` and grows with the reading. -/
theorem log_arg_bounds {a b : ℚ} (ha : 0 ≤ a) (hab : a ≤ b) (hb : b ≤ 1) :
    1 ≤ fadd 1 (fmul 100 a) ∧ fadd 1 (fmul 100 a) ≤ fadd 1 (fmul 100 b) ∧
      fadd 1 (fmul 100 b) ≤ 101 := by
  have h100 : rnd 100 = 100 := by simpa using rnd_int 100 (by norm_num)
  have h101 : rnd 101 = 101 := by simpa using rnd_int 101 (by norm_num)
  have h1 : rnd 1 = 1 := by simpa using rnd_int 1 (by norm_num)
  have ea : 0 ≤ fmul 100 a := rnd_nonneg (by positivity)
  have eab : fmul 100 a ≤ fmul 100 b := rnd_mono (by linarith)
  have eb : fmul 100 b ≤ 100 := by
    have := rnd_mono (show 100 * b ≤ 100 by linarith)
    rwa [h100] at this
  refine ⟨?_, rnd_mono (by linarith), ?_⟩
  · have := rnd_mono (show (1 : ℚ) ≤ 1 + fmul 100 a by linarith)
    rwa [h1] at this
  · have := rnd_mono (show 1 + fmul 100 b ≤ 101 by linarith)
    rwa [h101] at this

theorem log_samples_nonneg (x : ℚ) : 0 ≤ log_samples x := by
  unfold log_samples; split_ifs <;> norm_num

theorem log_samples_mono {x y : ℚ} (h : x ≤ y) : log_samples x ≤ log_samples y := by
  unfold log_samples
  split_ifs <;> first | (exfalso; linarith) | norm_num

theorem log_samples_101 : log_samples 101 = 5196163759979057 / 2 ^ 50 := by
  unfold log_samples; norm_num

theorem log_samples_51 : log_samples 51 = 8853684227211519 / 2 ^ 51 := by
  unfold log_samples; norm_num

theorem log_samples_1 : log_samples 1 = 0 := by
  unfold log_samples; norm_num

theorem schedule_fade_fields (cfg : configuration) (now : Nat → Int) (k : Nat) :
    ∀ (i : Nat) (σ : State),
      (schedule_fade cfg now i k σ).curr_bright = σ.curr_bright ∧
      (schedule_fade cfg now i k σ).new_bright = σ.new_bright ∧
      (schedule_fade cfg now i k σ).step_size = σ.step_size ∧
      (schedule_fade cfg now i k σ).values_ = σ.values_ ∧
      (schedule_fade cfg now i k σ).max_bright_ = σ.max_bright_ ∧
      (schedule_fade cfg now i k σ).display = σ.display ∧
      (schedule_fade cfg now i k σ).next_id = σ.next_id + k := by
  induction k with
  | zero => intro i σ; simp [schedule_fade]
  | succ k ih =>
    intro i σ
    obtain ⟨a, b, c, d, e, f, g⟩ := ih (i + 1)
      (σ.emplace (now i + ms (i * cfg.fade_time / cfg.fade_steps)) action_type.BACKLIGHT_FADE)
    simp only [schedule_fade]
    refine ⟨a, b, c, d, e, f, ?_⟩
    rw [g]; simp [State.emplace]; omega

/-- The target a successful poll leaves in `new_bright` is the curve value of the window
mean, raised to `min_bright`. -/
theorem poll_branch_target (cfg : configuration) (logd : ℚ → ℚ) (inp : Input) (σ σ1 : State)
    (h : poll_branch cfg logd inp σ = .ok σ1) :
    ∃ vs a cb, ambient_light_poll inp.line σ.values_ = .ok (vs, a) ∧
      inp.brightness = some cb ∧ σ1.curr_bright = cb ∧
      σ1.new_bright = max (desired_brightness logd σ.max_bright_ a) cfg.min_bright ∧
      cfg.min_bright ≤ σ1.new_bright := by
  cases hp : ambient_light_poll inp.line σ.values_ with
  | error e => unfold poll_branch at h; rw [hp] at h; simp at h
  | ok r =>
    obtain ⟨vs, a⟩ := r
    cases hb : inp.brightness with
    | none => unfold poll_branch at h; rw [hp] at h; simp [hb] at h
    | some cb =>
      refine ⟨vs, a, cb, rfl, rfl, ?_⟩
      by_cases hne : cb = max (desired_brightness logd σ.max_bright_ a) cfg.min_bright
      · rw [poll_branch_same cfg logd inp σ vs a cb hp hb hne] at h
        injection h with h
        subst h
        simp [State.emplace]
      · by_cases hn : cfg.fade_steps = 0
        · unfold poll_branch at h
          rw [hp] at h
          simp only [hb] at h
          rw [if_pos hne, if_pos hn] at h
          simp at h
        · rw [poll_branch_fade cfg logd inp σ vs a cb hp hb hne hn] at h
          injection h with h
          subst h
          obtain ⟨e1, e2, _⟩ := schedule_fade_fields cfg inp.now cfg.fade_steps 0
            { σ with values_ := vs, curr_bright := cb,
                     new_bright := max (desired_brightness logd σ.max_bright_ a) cfg.min_bright,
                     step_size := step_size_of cfg.fade_steps cb
                       (max (desired_brightness logd σ.max_bright_ a) cfg.min_bright) }
          simp only [State.emplace, e1, e2]
          simp

theorem ms_nonneg (d : Nat) : 0 ≤ ms d := by
  unfold ms; positivity

theorem before_trans {a b c : entry} (h1 : before a b) (h2 : before b c) : before a c := by
  unfold before at *
  rcases h1 with h1 | ⟨h1, h1'⟩ <;> rcases h2 with h2 | ⟨h2, h2'⟩
  · left; omega
  · left; omega
  · left; omega
  · right; exact ⟨by omega, by omega⟩

theorem emplace_cons_of_le (t : Int) (a : action_type) (id : Nat) (e : entry) (q : List entry)
    (h : e.time ≤ t) : emplace t a id (e :: q) = e :: emplace t a id q := by
  simp only [emplace]
  rw [if_neg (by omega)]

theorem emplace_pairwise (t : Int) (a : action_type) (id : Nat) (q : List entry)
    (hq : q.Pairwise before) (hid : ∀ x ∈ q, x.id < id) :
    (emplace t a id q).Pairwise before := by
  induction q with
  | nil => simp [emplace]
  | cons e q ih =>
    rw [List.pairwise_cons] at hq
    unfold emplace
    split
    · rename_i hlt
      rw [List.pairwise_cons]
      refine ⟨?_, List.pairwise_cons.2 hq⟩
      intro x hx
      rcases List.mem_cons.1 hx with rfl | hx
      · exact Or.inl hlt
      · exact before_trans (Or.inl hlt) (hq.1 x hx)
    · rename_i hge
      rw [List.pairwise_cons]
      refine ⟨?_, ih hq.2 (fun x hx => hid x (List.mem_cons_of_mem _ hx))⟩
      intro x hx
      rcases (mem_emplace _ _ _ _ _).1 hx with rfl | hx
      · have := hid e (List.mem_cons_self _ _)
        unfold before
        simp only
        by_cases h : e.time = t
        · right; exact ⟨h, this⟩
        · left; omega
      · exact hq.1 x hx

theorem queue_ok_emplace (σ : State) (t : Int) (a : action_type) (h : queue_ok σ) :
    queue_ok (σ.emplace t a) := by
  obtain ⟨h1, h2⟩ := h
  refine ⟨emplace_pairwise _ _ _ _ h1 h2, ?_⟩
  intro x hx
  simp only [State.emplace] at hx ⊢
  rcases (mem_emplace _ _ _ _ _).1 hx with rfl | hx
  · simp
  · have := h2 x hx; omega

theorem precedes_emplace (e : entry) (σ : State) (t : Int) (a : action_type)
    (h : precedes e σ) (ht : e.time ≤ t) : precedes e (σ.emplace t a) := by
  obtain ⟨h1, h2⟩ := h
  refine ⟨by simp only [State.emplace]; omega, ?_⟩
  intro x hx
  simp only [State.emplace] at hx
  rcases (mem_emplace _ _ _ _ _).1 hx with rfl | hx
  · unfold before
    simp only
    by_cases h : e.time = t
    · right; exact ⟨h, h1⟩
    · left; omega
  · exact h2 x hx

/-- The head stays at the head when an entry that is not earlier is emplaced. -/
theorem head_emplace (e : entry) (σ : State) (t : Int) (a : action_type)
    (h : σ.timer_queue.head? = some e) (ht : e.time ≤ t) :
    (σ.emplace t a).timer_queue.head? = some e ∧
      (σ.emplace t a).timer_queue.tail = emplace t a σ.next_id σ.timer_queue.tail := by
  cases hq : σ.timer_queue with
  | nil => rw [hq] at h; simp at h
  | cons e' q =>
    rw [hq] at h
    simp only [List.head?_cons, Option.some.injEq] at h
    subst h
    simp only [State.emplace, hq, emplace_cons_of_le _ _ _ _ _ ht]
    simp

theorem keeps_refl (e : entry) (σ : State) (h : σ.timer_queue.head? = some e)
    (hok : queue_ok σ) : keeps e σ σ :=
  ⟨h, hok, fun _ h _ => h⟩

theorem keeps_emplace (e : entry) (σ σ1 : State) (t : Int) (a : action_type)
    (h : keeps e σ σ1) (ht : e.time ≤ t) : keeps e σ (σ1.emplace t a) :=
  ⟨(head_emplace e σ1 t a h.head ht).1, queue_ok_emplace σ1 t a h.ok,
   fun e0 h0 h1 => precedes_emplace e0 σ1 t a (h.prec e0 h0 h1) (by omega)⟩

theorem keeps_schedule_fade (cfg : configuration) (now : Nat → Int) (e : entry) (σ : State)
    (hnow : ∀ i, e.time ≤ now i) :
    ∀ (k i : Nat) (σ1 : State), keeps e σ σ1 → keeps e σ (schedule_fade cfg now i k σ1) := by
  intro k
  induction k with
  | zero => intro i σ1 h; exact h
  | succ k ih =>
    intro i σ1 h
    simp only [schedule_fade]
    apply ih
    apply keeps_emplace e σ σ1 _ _ h
    have := ms_nonneg (i * cfg.fade_time / cfg.fade_steps)
    have := hnow i
    omega

/-- An update of the brightness variables and of the window leaves the queue alone. -/
theorem keeps_of_queue (e : entry) (σ σ1 σ2 : State) (h : keeps e σ σ1)
    (hq : σ2.timer_queue = σ1.timer_queue) (hid : σ2.next_id = σ1.next_id) : keeps e σ σ2 := by
  obtain ⟨a, b, c⟩ := h
  refine ⟨by rw [hq]; exact a, ⟨by rw [hq]; exact b.1, by rw [hq, hid]; exact b.2⟩, ?_⟩
  intro e0 h0 h1
  obtain ⟨x, y⟩ := c e0 h0 h1
  exact ⟨by rw [hid]; exact x, by rw [hq]; exact y⟩

theorem keeps_poll_branch (cfg : configuration) (logd : ℚ → ℚ) (inp : Input) (σ σ1 : State)
    (e : entry) (he : σ.timer_queue.head? = some e) (hok : queue_ok σ)
    (hnow : ∀ i, e.time ≤ inp.now i) (h : poll_branch cfg logd inp σ = .ok σ1) :
    keeps e σ σ1 := by
  obtain ⟨vs, a, cb, hp, hb, _⟩ := poll_branch_target cfg logd inp σ σ1 h
  have h0 := keeps_refl e σ he hok
  by_cases hne : cb = max (desired_brightness logd σ.max_bright_ a) cfg.min_bright
  · rw [poll_branch_same cfg logd inp σ vs a cb hp hb hne] at h
    injection h with h
    subst h
    apply keeps_emplace
    · exact keeps_of_queue e σ σ _ h0 rfl rfl
    · have := ms_nonneg cfg.poll_time
      have := hnow 0
      omega
  · by_cases hn : cfg.fade_steps = 0
    · unfold poll_branch at h
      rw [hp] at h
      simp only [hb] at h
      rw [if_pos hne, if_pos hn] at h
      simp at h
    · rw [poll_branch_fade cfg logd inp σ vs a cb hp hb hne hn] at h
      injection h with h
      subst h
      apply keeps_emplace
      · apply keeps_schedule_fade cfg inp.now e σ hnow
        exact keeps_of_queue e σ σ _ h0 rfl rfl
      · have := ms_nonneg cfg.poll_time
        have := hnow cfg.fade_steps
        omega

theorem keeps_fade_branch (cfg : configuration) (inp : Input) (σ : State)
    (e : entry) (he : σ.timer_queue.head? = some e) (hok : queue_ok σ)
    (hnow : ∀ i, e.time ≤ inp.now i) : keeps e σ (fade_branch cfg inp σ) := by
  have h0 := keeps_refl e σ he hok
  unfold fade_branch
  simp only
  split
  · apply keeps_emplace
    · exact keeps_of_queue e σ σ _ h0 rfl rfl
    · have := ms_nonneg (cfg.fade_time / cfg.fade_steps)
      have := hnow 0
      omega
  · exact keeps_of_queue e σ σ _ h0 rfl rfl

/-- One iteration under a clock that is not early: the queue stays in order, the executed
head precedes what is left, and so does everything that preceded the queue before. -/
theorem step_order (cfg : configuration) (logd : ℚ → ℚ) (inp : Input) (σ σ1 : State)
    (e : entry) (he : σ.timer_queue.head? = some e) (hok : queue_ok σ)
    (hnow : ∀ i, e.time ≤ inp.now i) (h : step cfg logd inp σ = .ok σ1) :
    queue_ok σ1 ∧ precedes e σ1 ∧ ∀ e0, precedes e0 σ → precedes e0 σ1 := by
  have hk : ∃ σ', keeps e σ σ' ∧ σ1.timer_queue = σ'.timer_queue.tail ∧
      σ1.next_id = σ'.next_id := by
    cases hq : σ.timer_queue with
    | nil => rw [hq] at he; simp at he
    | cons e' q =>
      have he' : e' = e := by rw [hq] at he; simpa using he
      subst he'
      cases ha : e'.action with
      | BACKLIGHT_POLL =>
        cases hp : poll_branch cfg logd inp σ with
        | error err =>
          unfold step at h; rw [hq] at h; simp only [ha, hp] at h
          cases h
        | ok σ' =>
          rw [step_poll cfg logd inp σ σ' e' q hq ha hp] at h
          injection h with h
          subst h
          exact ⟨σ', keeps_poll_branch cfg logd inp σ σ' e' he hok hnow hp, rfl, rfl⟩
      | BACKLIGHT_FADE =>
        rw [step_fade cfg logd inp σ e' q hq ha] at h
        injection h with h
        subst h
        exact ⟨_, keeps_fade_branch cfg inp σ e' he hok hnow, rfl, rfl⟩
  obtain ⟨σ', ⟨hh, hok', hprec⟩, hq1, hid1⟩ := hk
  cases hq' : σ'.timer_queue with
  | nil => rw [hq'] at hh; simp at hh
  | cons e' q' =>
    have he' : e' = e := by rw [hq'] at hh; simpa using hh
    subst he'
    obtain ⟨hpw, hids⟩ := hok'
    rw [hq'] at hpw hids
    rw [List.pairwise_cons] at hpw
    rw [hq', List.tail_cons] at hq1
    refine ⟨⟨by rw [hq1]; exact hpw.2, ?_⟩, ⟨?_, ?_⟩, ?_⟩
    · intro x hx
      rw [hq1] at hx
      rw [hid1]
      exact hids x (List.mem_cons_of_mem _ hx)
    · rw [hid1]; exact hids e' (List.mem_cons_self _ _)
    · intro x hx
      rw [hq1] at hx
      exact hpw.1 x hx
    · intro e0 h0
      have hle : e0.time ≤ e'.time := by
        have : e' ∈ σ.timer_queue := by
          cases hq : σ.timer_queue with
          | nil => rw [hq] at he; simp at he
          | cons a q => rw [hq] at he; simp at he; subst he; simp
        have := h0.2 e' this
        unfold before at this
        omega
      obtain ⟨x, y⟩ := hprec e0 h0 hle
      refine ⟨by rw [hid1]; exact x, ?_⟩
      intro z hz
      rw [hq1] at hz
      exact y z (by rw [hq']; exact List.mem_cons_of_mem _ hz)

theorem executed_order (cfg : configuration) (logd : ℚ → ℚ) :
    ∀ (ins : List Input) (σ : State), queue_ok σ → clock_not_early cfg logd ins σ →
      (executed cfg logd ins σ).Pairwise before ∧
      ∀ e0, precedes e0 σ → ∀ b ∈ executed cfg logd ins σ, before e0 b := by
  intro ins
  induction ins with
  | nil => intro σ _ _; simp [executed]
  | cons inp rest ih =>
    intro σ hok hclk
    obtain ⟨hnow, hrest⟩ := hclk
    cases hh : σ.timer_queue.head? with
    | none => simp [executed, hh]
    | some e =>
      cases hs : step cfg logd inp σ with
      | error err => simp [executed, hh, hs]
      | ok σ1 =>
        obtain ⟨hok1, hp1, hpres⟩ := step_order cfg logd inp σ σ1 e hh hok (hnow e hh) hs
        obtain ⟨ih1, ih2⟩ := ih σ1 hok1 (hrest σ1 hs)
        have hex : executed cfg logd (inp :: rest) σ = e :: executed cfg logd rest σ1 := by
          simp [executed, hh, hs]
        rw [hex]
        refine ⟨List.pairwise_cons.2 ⟨ih2 e hp1, ih1⟩, ?_⟩
        intro e0 h0 b hb
        rcases List.mem_cons.1 hb with rfl | hb
        · have : b ∈ σ.timer_queue := by
            cases hq : σ.timer_queue with
            | nil => rw [hq] at hh; simp at hh
            | cons a q => rw [hq] at hh; simp at hh; subst hh; simp
          exact h0.2 b this
        · exact ih2 e0 (hpres e0 h0) b hb

theorem read_digits_append (ds tail : List Char) (hds : ∀ c ∈ ds, c.isDigit = true)
    (htail : ∀ c, tail.head? = some c → c.isDigit = false) :
    ∀ acc, read_digits acc (ds ++ tail) = read_digits acc ds := by
  induction ds with
  | nil =>
    intro acc
    cases tail with
    | nil => rfl
    | cons c t =>
      have := htail c rfl
      simp [read_digits, this]
  | cons d ds ih =>
    intro acc
    have hd := hds d (List.mem_cons_self _ _)
    simp only [List.cons_append, read_digits, hd, if_true]
    exact ih (fun c hc => hds c (List.mem_cons_of_mem _ hc)) _

theorem digit_not_space (c : Char) (h : c.isDigit = true) :
    is_space c = false ∧ c ≠ '-' ∧ c ≠ '+' := by
  have h1 : 48 ≤ c.val ∧ c.val ≤ 57 := by
    simpa [Char.isDigit, Bool.and_eq_true, decide_eq_true_eq] using h
  have h2 : 48 ≤ c.toNat ∧ c.toNat ≤ 57 := by
    obtain ⟨a, b⟩ := h1
    exact ⟨a, b⟩
  refine ⟨?_, ?_, ?_⟩
  · unfold is_space
    simp only [Bool.or_eq_false_iff, decide_eq_false_iff_not, Bool.and_eq_false_iff]
    constructor
    · omega
    · right; omega
  · rintro rfl; revert h2; decide
  · rintro rfl; revert h2; decide

/-- The function `std::stoi` stops at the first character that is not a digit. -/
theorem stoi_append (ds tail : List Char) (hne : ds ≠ []) (hds : ∀ c ∈ ds, c.isDigit = true)
    (htail : ∀ c, tail.head? = some c → c.isDigit = false) :
    stoi (ds ++ tail) = stoi ds := by
  cases ds with
  | nil => exact absurd rfl hne
  | cons d ds =>
    have hd := hds d (List.mem_cons_self _ _)
    obtain ⟨h1, h2, h3⟩ := digit_not_space d hd
    have hr := read_digits_append (d :: ds) tail hds htail 0
    simp only [List.cons_append] at hr
    have e1 : ∀ l : List Char, List.dropWhile is_space (d :: l) = d :: l := by
      intro l; simp [List.dropWhile, h1]
    unfold stoi
    simp only [List.cons_append, e1, List.head?_cons, Option.some.injEq, h2, h3, or_self,
      if_false, hd, if_true, hr]

set_option maxRecDepth 100000 in
/-- The decimal digits of the sensor values: they are digits, and `std::stoi` reads the
value back. -/
theorem toDigits_facts : ∀ n : Fin 256,
    Nat.toDigits 10 n ≠ [] ∧ (Nat.toDigits 10 n).length ≤ 3 ∧
      (∀ c ∈ Nat.toDigits 10 n, c.isDigit = true) ∧
      stoi (Nat.toDigits 10 n) = some (n : Nat) := by
  decide

/-- The parse of a line made of one leading character, a run of digits and a tail that is
empty or begins with a comma. -/
theorem ambient_reading_digits (c : Char) (ds tail : List Char) (hne : ds ≠ [])
    (hshort : ds.length < 18446744073709551615) (hds : ∀ d ∈ ds, d.isDigit = true)
    (htail : tail = [] ∨ ∃ rest, tail = ',' :: rest) :
    ambient_reading (c :: (ds ++ tail)) = (stoi ds).map (fun n => fdiv (n : ℚ) 255) := by
  have hcomma : ',' ∉ ds := by
    intro h
    have := hds _ h
    revert this; decide
  have hlen : ¬ (c :: (ds ++ tail)).length ≤ 1 := by
    cases ds with
    | nil => exact absurd rfl hne
    | cons d ds => simp
  have hidx : List.indexOf ',' tail = 0 := by
    rcases htail with rfl | ⟨rest, rfl⟩
    · rfl
    · exact List.indexOf_cons_self _ _
  have hhead : ∀ k : Nat, ∀ x, (tail.take k).head? = some x → x.isDigit = false := by
    intro k x hx
    rcases htail with rfl | ⟨rest, rfl⟩
    · simp at hx
    · cases k with
      | zero => simp at hx
      | succ k => simp at hx; subst hx; decide
  have hval : stoi (((c :: (ds ++ tail)).drop 1).take
      (to_size (((c :: (ds ++ tail)).indexOf ',' : Nat) - 1))) = stoi ds := by
    simp only [List.drop_succ_cons, List.drop_zero]
    rw [List.take_append_eq_append_take]
    by_cases hc : c = ','
    · subst hc
      rw [List.indexOf_cons_self]
      have e : to_size (((0 : Nat) : Int) - 1) = 18446744073709551615 := by decide
      rw [e]
      rw [List.take_of_length_le (le_of_lt hshort)]
      exact stoi_append ds _ hne hds (hhead _)
    · rw [List.indexOf_cons_ne _ hc, List.indexOf_append_of_not_mem hcomma, hidx]
      have e : to_size (((ds.length + 0).succ : Nat) - 1) = ds.length := by
        unfold to_size
        have : (((ds.length + 0).succ : Nat) : Int) - 1 = (ds.length : Int) := by
          push_cast; omega
        rw [this, Int.emod_eq_of_lt (by omega) (by omega)]
        simp
      rw [e, List.take_length, Nat.sub_self, List.take_zero, List.append_nil]
  unfold ambient_reading
  rw [if_neg hlen]
  simp only [hval]

theorem fdiv_255_range (n : Nat) (hn : n ≤ 255) :
    0 ≤ fdiv (n : ℚ) 255 ∧ fdiv (n : ℚ) 255 ≤ 1 := by
  constructor
  · exact rnd_nonneg (by positivity)
  · have h : (n : ℚ) / 255 ≤ 1 := by
      rw [div_le_one (by norm_num)]
      exact_mod_cast hn
    have := rnd_mono h
    rwa [rnd_one] at this

/-- The binary64 value of `27 / 255.0`. -/
theorem fdiv_27_255 : fdiv 27 255 = 7629627604015899 * 2 ^ (-56 : Int) := by
  unfold fdiv
  have := rnd_eq_pos ((27 : ℚ) / 255) (-4) 7629627604015899
    (by norm_num) (by norm_num) (by norm_num) (by norm_num) (by norm_num)
  simpa using this

/-- The mean that `poll` computes over a window of ten copies of `27 / 255.0`: the ten
rounded additions give `4768517252509936 * 2^-52` and the rounded division by 10 gives the
binary64 value just below `27 / 255.0`. -/
theorem window_mean_27 :
    window_mean (List.replicate 10 (7629627604015899 * 2 ^ (-56 : Int)))
      = 7629627604015898 * 2 ^ (-56 : Int) := by
  have h0 : fadd 0 (7629627604015899 * 2 ^ (-56 : Int) : ℚ) = (7629627604015899 * 2 ^ (-56 : Int) : ℚ) := by
    unfold fadd
    have := rnd_eq_pos (0 + (7629627604015899 * 2 ^ (-56 : Int) : ℚ)) (-4) 7629627604015899
      (by norm_num) (by norm_num) (by norm_num) (by norm_num) (by norm_num)
    simpa using this
  have h1 : fadd (7629627604015899 * 2 ^ (-56 : Int) : ℚ) (7629627604015899 * 2 ^ (-56 : Int) : ℚ) = (7629627604015899 * 2 ^ (-55 : Int) : ℚ) := by
    unfold fadd
    have := rnd_eq_pos ((7629627604015899 * 2 ^ (-56 : Int) : ℚ) + (7629627604015899 * 2 ^ (-56 : Int) : ℚ)) (-3) 7629627604015899
      (by norm_num) (by norm_num) (by norm_num) (by norm_num) (by norm_num)
    simpa using this
  have h2 : fadd (7629627604015899 * 2 ^ (-55 : Int) : ℚ) (7629627604015899 * 2 ^ (-56 : Int) : ℚ) = (5722220703011924 * 2 ^ (-54 : Int) : ℚ) := by
    unfold fadd
    have := rnd_eq_pos ((7629627604015899 * 2 ^ (-55 : Int) : ℚ) + (7629627604015899 * 2 ^ (-56 : Int) : ℚ)) (-2) 5722220703011924
      (by norm_num) (by norm_num) (by norm_num) (by norm_num) (by norm_num)
    simpa using this
  have h3 : fadd (5722220703011924 * 2 ^ (-54 : Int) : ℚ) (7629627604015899 * 2 ^ (-56 : Int) : ℚ) = (7629627604015899 * 2 ^ (-54 : Int) : ℚ) := by
    unfold fadd
    have := rnd_eq_pos ((5722220703011924 * 2 ^ (-54 : Int) : ℚ) + (7629627604015899 * 2 ^ (-56 : Int) : ℚ)) (-2) 7629627604015899
      (by norm_num) (by norm_num) (by norm_num) (by norm_num) (by norm_num)
    simpa using this
  have h4 : fadd (7629627604015899 * 2 ^ (-54 : Int) : ℚ) (7629627604015899 * 2 ^ (-56 : Int) : ℚ) = (4768517252509937 * 2 ^ (-53 : Int) : ℚ) := by
    unfold fadd
    have := rnd_eq_pos ((7629627604015899 * 2 ^ (-54 : Int) : ℚ) + (7629627604015899 * 2 ^ (-56 : Int) : ℚ)) (-1) 4768517252509937
      (by norm_num) (by norm_num) (by norm_num) (by norm_num) (by norm_num)
    simpa using this
  have h5 : fadd (4768517252509937 * 2 ^ (-53 : Int) : ℚ) (7629627604015899 * 2 ^ (-56 : Int) : ℚ) = (5722220703011924 * 2 ^ (-53 : Int) : ℚ) := by
    unfold fadd
    have := rnd_eq_pos ((4768517252509937 * 2 ^ (-53 : Int) : ℚ) + (7629627604015899 * 2 ^ (-56 : Int) : ℚ)) (-1) 5722220703011924
      (by norm_num) (by norm_num) (by norm_num) (by norm_num) (by norm_num)
    simpa using this
  have h6 : fadd (5722220703011924 * 2 ^ (-53 : Int) : ℚ) (7629627604015899 * 2 ^ (-56 : Int) : ℚ) = (6675924153513911 * 2 ^ (-53 : Int) : ℚ) := by
    unfold fadd
    have := rnd_eq_pos ((5722220703011924 * 2 ^ (-53 : Int) : ℚ) + (7629627604015899 * 2 ^ (-56 : Int) : ℚ)) (-1) 6675924153513911
      (by norm_num) (by norm_num) (by norm_num) (by norm_num) (by norm_num)
    simpa using this
  have h7 : fadd (6675924153513911 * 2 ^ (-53 : Int) : ℚ) (7629627604015899 * 2 ^ (-56 : Int) : ℚ) = (7629627604015898 * 2 ^ (-53 : Int) : ℚ) := by
    unfold fadd
    have := rnd_eq_pos ((6675924153513911 * 2 ^ (-53 : Int) : ℚ) + (7629627604015899 * 2 ^ (-56 : Int) : ℚ)) (-1) 7629627604015898
      (by norm_num) (by norm_num) (by norm_num) (by norm_num) (by norm_num)
    simpa using this
  have h8 : fadd (7629627604015898 * 2 ^ (-53 : Int) : ℚ) (7629627604015899 * 2 ^ (-56 : Int) : ℚ) = (8583331054517885 * 2 ^ (-53 : Int) : ℚ) := by
    unfold fadd
    have := rnd_eq_pos ((7629627604015898 * 2 ^ (-53 : Int) : ℚ) + (7629627604015899 * 2 ^ (-56 : Int) : ℚ)) (-1) 8583331054517885
      (by norm_num) (by norm_num) (by norm_num) (by norm_num) (by norm_num)
    simpa using this
  have h9 : fadd (8583331054517885 * 2 ^ (-53 : Int) : ℚ) (7629627604015899 * 2 ^ (-56 : Int) : ℚ) = (4768517252509936 * 2 ^ (-52 : Int) : ℚ) := by
    unfold fadd
    have := rnd_eq_pos ((8583331054517885 * 2 ^ (-53 : Int) : ℚ) + (7629627604015899 * 2 ^ (-56 : Int) : ℚ)) (0) 4768517252509936
      (by norm_num) (by norm_num) (by norm_num) (by norm_num) (by norm_num)
    simpa using this
  have hd : fdiv (4768517252509936 * 2 ^ (-52 : Int) : ℚ) 10 = 7629627604015898 * 2 ^ (-56 : Int) := by
    unfold fdiv
    have := rnd_eq_pos ((4768517252509936 * 2 ^ (-52 : Int) : ℚ) / 10) (-4) 7629627604015898
      (by norm_num) (by norm_num) (by norm_num) (by norm_num) (by norm_num)
    simpa using this
  unfold window_mean
  simp only [List.replicate, List.foldl]
  rw [h0, h1, h2, h3, h4, h5, h6, h7, h8, h9, hd]

/-- The rounding error of a binary64 operation whose exact result is below `2^k`. -/
theorem rnd_err {x : ℚ} {k : Int} (hk : -1021 ≤ k) (hx : |x| < 2 ^ k) :
    |rnd x - x| ≤ 2 ^ (k - 54) := by
  by_cases h0 : x = 0
  · subst h0; rw [rnd_zero]; simp; exact le_of_lt (two_zpow_pos _)
  have hlog : Int.log 2 |x| < k := by
    rw [← Int.lt_zpow_iff_log_lt (by norm_num) (abs_pos.2 h0)]; exact_mod_cast hx
  have hu : ulp_exp x ≤ k - 53 := by unfold ulp_exp; omega
  have hp := two_zpow_pos (ulp_exp x)
  have hb := rne_bounds (x / 2 ^ ulp_exp x)
  have e1 : rnd x - x = ((rne (x / 2 ^ ulp_exp x) : ℚ) - x / 2 ^ ulp_exp x) * 2 ^ ulp_exp x := by
    unfold rnd; field_simp
  have e2 : |(rne (x / 2 ^ ulp_exp x) : ℚ) - x / 2 ^ ulp_exp x| ≤ 1 / 2 := by
    rw [abs_le]; constructor <;> linarith [hb.1, hb.2]
  rw [e1, abs_mul, abs_of_pos hp]
  have e3 : (2 : ℚ) ^ ulp_exp x ≤ 2 ^ (k - 53) := zpow_le_zpow_right₀ (by norm_num) hu
  have e4 : (2 : ℚ) ^ (k - 54) = 1 / 2 * 2 ^ (k - 53) := by
    rw [show k - 54 = (k - 53) + (-1) by ring, zpow_add₀ (by norm_num : (2 : ℚ) ≠ 0)]
    norm_num
    ring
  rw [e4]
  exact mul_le_mul e2 e3 (le_of_lt hp) (by norm_num)

/-- The accumulation of `std::accumulate` over readings in `[0, 1]`: after `m` earlier
additions and those of `w`, the rounded sum is within `(m + |w|) * 2^-50` of the exact
one. -/
theorem foldl_fadd_err : ∀ (w : List ℚ) (m : Nat) (acc accx : ℚ),
    (∀ x ∈ w, 0 ≤ x ∧ x ≤ 1) → m + w.length ≤ 15 → 0 ≤ acc → acc ≤ m →
    |acc - accx| ≤ m * 2 ^ (-50 : Int) →
    0 ≤ w.foldl fadd acc ∧ w.foldl fadd acc ≤ (m + w.length : Nat) ∧
      |w.foldl fadd acc - (accx + w.sum)| ≤ (m + w.length : Nat) * 2 ^ (-50 : Int) := by
  intro w
  induction w with
  | nil =>
    intro m acc accx _ _ h0 h1 h2
    simpa using ⟨h0, h1, h2⟩
  | cons v w ih =>
    intro m acc accx hw hlen h0 h1 h2
    obtain ⟨hv0, hv1⟩ := hw v (List.mem_cons_self _ _)
    simp only [List.length_cons] at hlen
    have hm : (m : ℚ) + 1 ≤ 15 := by
      have : m + 1 ≤ 15 := by omega
      exact_mod_cast this
    have hs0 : 0 ≤ acc + v := by linarith
    have hs1 : acc + v ≤ (m : ℚ) + 1 := by linarith
    have hr0 : 0 ≤ fadd acc v := rnd_nonneg hs0
    have hr1 : fadd acc v ≤ ((m + 1 : Nat) : ℚ) := by
      have := rnd_mono hs1
      have e : rnd ((m : ℚ) + 1) = (m : ℚ) + 1 := by
        have := rnd_int ((m : Int) + 1) (by
          rw [abs_of_nonneg (by omega)]
          have : (m : Int) + 1 ≤ 15 := by omega
          omega)
        push_cast at this
        exact this
      rw [e] at this
      push_cast
      exact this
    have herr : |fadd acc v - (acc + v)| ≤ 2 ^ (-50 : Int) := by
      have := rnd_err (x := acc + v) (k := 4) (by norm_num)
        (by rw [abs_of_nonneg hs0]; norm_num; linarith)
      simpa using this
    have h2' : |fadd acc v - (accx + v)| ≤ ((m + 1 : Nat) : ℚ) * 2 ^ (-50 : Int) := by
      have : fadd acc v - (accx + v) = (fadd acc v - (acc + v)) + (acc - accx) := by ring
      rw [this]
      refine le_trans (abs_add _ _) ?_
      push_cast
      linarith
    obtain ⟨a, b, c⟩ := ih (m + 1) (fadd acc v) (accx + v)
      (fun x hx => hw x (List.mem_cons_of_mem _ hx)) (by omega) hr0 hr1 h2'
    simp only [List.foldl_cons, List.sum_cons, List.length_cons]
    refine ⟨a, ?_, ?_⟩
    · rw [show m + (w.length + 1) = m + 1 + w.length by omega]; exact b
    · rw [show m + (w.length + 1) = m + 1 + w.length by omega, ← add_assoc]; exact c

/-- The mean that `poll` returns over a window of ten readings in `[0, 1]` is within
`2^-49` of the exact arithmetic mean. -/
theorem window_mean_err (w : List ℚ) (hlen : w.length = 10) (hw : ∀ x ∈ w, 0 ≤ x ∧ x ≤ 1) :
    |window_mean w - w.sum / 10| ≤ 2 ^ (-49 : Int) := by
  obtain ⟨a, b, c⟩ := foldl_fadd_err w 0 0 0 hw (by omega) (le_refl _) (by simp) (by simp)
  rw [hlen] at b c
  simp only [zero_add] at b c
  push_cast at b c
  have hq0 : 0 ≤ w.foldl fadd 0 / 10 := by positivity
  have hq1 : w.foldl fadd 0 / 10 ≤ 1 := by
    rw [div_le_one (by norm_num)]; exact b
  have herr : |fdiv (w.foldl fadd 0) 10 - w.foldl fadd 0 / 10| ≤ 2 ^ (-53 : Int) := by
    have := rnd_err (x := w.foldl fadd 0 / 10) (k := 1) (by norm_num)
      (by rw [abs_of_nonneg hq0]; norm_num; linarith)
    simpa [fdiv] using this
  have hc : |w.foldl fadd 0 / 10 - w.sum / 10| ≤ 2 ^ (-50 : Int) := by
    have : w.foldl fadd 0 / 10 - w.sum / 10 = (w.foldl fadd 0 - w.sum) / 10 := by ring
    rw [this, abs_div]
    rw [div_le_iff₀ (by norm_num)]
    have : |(10 : ℚ)| = 10 := by norm_num
    rw [this]
    linarith
  unfold window_mean
  have : fdiv (w.foldl fadd 0) 10 - w.sum / 10
      = (fdiv (w.foldl fadd 0) 10 - w.foldl fadd 0 / 10) + (w.foldl fadd 0 / 10 - w.sum / 10) := by
    ring
  rw [this]
  refine le_trans (abs_add _ _) ?_
  have e : (2 : ℚ) ^ (-53 : Int) + 2 ^ (-50 : Int) ≤ 2 ^ (-49 : Int) := by norm_num
  linarith

/-- The window after successive polls: every poll drops the oldest slot and appends the
reading, and returns the mean of the window it leaves. -/
theorem poll_seq_window : ∀ (lines : List (Option (List Char))) (vs : List ℚ) (w : List ℚ),
    List.Forall₂ (fun l v => read_value l = .ok v) lines vs → w ≠ [] →
    poll_seq lines w = .ok ((w ++ vs).drop vs.length,
      (List.range vs.length).map
        (fun j => window_mean ((w ++ vs.take (j + 1)).drop (j + 1)))) := by
  intro lines
  induction lines with
  | nil =>
    intro vs w h _
    cases h
    simp [poll_seq]
  | cons l ls ih =>
    intro vs w h hw
    cases h with
    | cons hv hrest =>
      rename_i v vs'
      cases w with
      | nil => exact absurd rfl hw
      | cons a w' =>
        have hp : ambient_light_poll l (a :: w')
            = .ok (w' ++ [v], window_mean (w' ++ [v])) := by
          unfold ambient_light_poll
          rw [hv]
          simp
        have := ih vs' (w' ++ [v]) hrest (by simp)
        simp only [poll_seq, hp, this]
        have e1 : ((a :: w') ++ v :: vs').drop (v :: vs').length
            = (w' ++ [v] ++ vs').drop vs'.length := by simp
        have e2 : (List.range (v :: vs').length).map
              (fun j => window_mean (((a :: w') ++ (v :: vs').take (j + 1)).drop (j + 1)))
            = window_mean (w' ++ [v]) :: (List.range vs'.length).map
              (fun j => window_mean ((w' ++ [v] ++ vs'.take (j + 1)).drop (j + 1))) := by
          rw [List.length_cons, List.range_succ_eq_map, List.map_cons, List.map_map]
          congr 1
          apply List.map_congr_left
          intro j _
          simp
        rw [e1, e2]

/-- A fade action that reaches or passes the target from below, or whose step is zero:
`curr_bright` becomes the target, the target is written, nothing is enqueued. -/
theorem fade_hit_step (cfg : configuration) (logd : ℚ → ℚ) (inp : Input) (σ : State)
    (T s : Int) (p : Nat) (h : fading σ T s (p + 1))
    (hit : s = 0 ∨ (T ≤ σ.curr_bright + s ∧ in_i32 (σ.curr_bright + s))) :
    ∃ σ1, step cfg logd inp σ = .ok σ1 ∧ σ1.curr_bright = T ∧ fading σ1 T s p ∧
      σ1.display = σ.display ++ [T] := by
  obtain ⟨σ1, h1, hc, hd, hf⟩ := fading_step cfg logd inp σ T s p h
  have hv : fade_value σ.curr_bright T s = T := by
    unfold fade_value
    simp only
    split
    · rfl
    · rename_i hno
      push_neg at hno
      rcases hit with h0 | ⟨h0, h1⟩
      · exact absurd h0 hno.1
      · rw [wrap32_of_in _ h1] at hno ⊢
        omega
  rw [hv] at hc hd hf
  exact ⟨σ1, h1, hc, by simpa using hf, hd⟩

/-- Fade actions below the target: `k` actions add the step `k` times, write every
intermediate value, and leave the number of queued entries unchanged. -/
theorem fade_climb_run (cfg : configuration) (logd : ℚ → ℚ) (T s : Int) (p : Nat)
    (hs : 0 < s) (hT : in_i32 T) :
    ∀ (k : Nat) (c : Int) (σ : State) (ins : List Input), fading σ T s (p + 1) →
      σ.curr_bright = c → in_i32 c → c + (k : Int) * s < T → ins.length = k →
      ∃ σ1, run cfg logd ins σ = .ok σ1 ∧ σ1.curr_bright = c + (k : Int) * s ∧
        fading σ1 T s (p + 1) ∧
        σ1.display = σ.display ++ (List.range k).map (fun i : Nat => c + ((i : Int) + 1) * s) := by
  intro k
  induction k with
  | zero =>
    intro c σ ins hσ hc _ _ hins
    rw [List.length_eq_zero.1 hins]
    exact ⟨σ, rfl, by simpa using hc, hσ, by simp⟩
  | succ k ih =>
    intro c σ ins hσ hc hci hlt hins
    cases ins with
    | nil => simp at hins
    | cons inp rest =>
      have hks : 0 ≤ (k : Int) * s := mul_nonneg (by omega) (le_of_lt hs)
      have hlt' : c + s + (k : Int) * s < T := by
        have : c + ((k + 1 : Nat) : Int) * s = c + s + (k : Int) * s := by push_cast; ring
        rw [this] at hlt; exact hlt
      have hin : in_i32 (c + s) := by
        unfold in_i32 at hci hT ⊢; omega
      obtain ⟨σ1, h1, hc1, hd1, hf1⟩ := fading_step cfg logd inp σ T s p hσ
      have hv : fade_value σ.curr_bright T s = c + s := by
        unfold fade_value
        simp only
        rw [hc, wrap32_of_in _ hin, if_neg (by omega)]
      rw [hv] at hc1 hd1 hf1
      have hf1' : fading σ1 T s (p + 1) := by
        have : c + s ≠ T := by omega
        simpa [this] using hf1
      obtain ⟨σ2, h2, hc2, hf2, hd2⟩ := ih (c + s) σ1 rest hf1' hc1 hin hlt' (by simpa using hins)
      refine ⟨σ2, by simp [run, h1, h2], ?_, hf2, ?_⟩
      · rw [hc2]; push_cast; ring
      · rw [hd2, hd1, List.range_succ_eq_map, List.map_cons, List.map_map, List.append_assoc]
        congr 1
        simp only [List.singleton_append, Nat.cast_zero, zero_add, one_mul, List.cons.injEq,
          true_and]
        apply List.map_congr_left
        intro i _
        simp only [Function.comp, Nat.succ_eq_add_one]
        push_cast; ring

/-- Surplus fade actions at the target with a nonnegative step that does not overflow:
each one writes the target again and uses up one queued entry. -/
theorem fade_noop_run (cfg : configuration) (logd : ℚ → ℚ) (T s : Int)
    (hs : 0 ≤ s) (hT : in_i32 T) (hov : T + s < 2147483648) :
    ∀ (j p : Nat) (σ : State) (ins : List Input), fading σ T s (p + j) →
      σ.curr_bright = T → ins.length = j →
      ∃ σ1, run cfg logd ins σ = .ok σ1 ∧ σ1.curr_bright = T ∧ fading σ1 T s p ∧
        σ1.display = σ.display ++ List.replicate j T := by
  intro j
  induction j with
  | zero =>
    intro p σ ins hσ hc hins
    rw [List.length_eq_zero.1 hins]
    exact ⟨σ, rfl, hc, hσ, by simp⟩
  | succ j ih =>
    intro p σ ins hσ hc hins
    cases ins with
    | nil => simp at hins
    | cons inp rest =>
      have hσ' : fading σ T s ((p + j) + 1) := hσ
      obtain ⟨σ1, h1, hc1, hf1, hd1⟩ := fade_hit_step cfg logd inp σ T s (p + j) hσ'
        (Or.inr ⟨by rw [hc]; omega, by rw [hc]; unfold in_i32 at hT ⊢; omega⟩)
      obtain ⟨σ2, h2, hc2, hf2, hd2⟩ := ih p σ1 rest hf1 hc1 (by simpa using hins)
      refine ⟨σ2, by simp [run, h1, h2], hc2, hf2, ?_⟩
      rw [hd2, hd1, List.append_assoc]
      rfl

theorem climb_values_sorted (c s : Int) (hs : 0 < s) (k : Nat) :
    ((List.range k).map (fun i : Nat => c + ((i : Int) + 1) * s)).Pairwise (· < ·) := by
  rw [List.pairwise_map]
  refine List.Pairwise.imp ?_ (List.pairwise_lt_range k)
  intro a b hab
  have : (a : Int) < b := by exact_mod_cast hab
  nlinarith

/-- The count of the specification is `⌈d / s⌉`: the least number of steps of size
`s = d / n` that cover the distance `d`, and it is at most `2 n - 1`. -/
theorem hit_count_spec (d : Int) (n : Nat) (hn : 1 ≤ n) (hd : 0 < d) :
    1 ≤ hit_count d n ∧ hit_count d n ≤ 2 * n - 1 ∧
    (d / (n : Int) = 0 → hit_count d n = 1) ∧
    (0 < d / (n : Int) →
      ((hit_count d n : Int) - 1) * (d / (n : Int)) < d ∧
      d ≤ (hit_count d n : Int) * (d / (n : Int))) := by
  have hn0 : (0 : Int) < n := by exact_mod_cast hn
  have hs0 : 0 ≤ d / (n : Int) := Int.ediv_nonneg (le_of_lt hd) (le_of_lt hn0)
  unfold hit_count
  by_cases hz : d / (n : Int) = 0
  · rw [if_pos hz]
    exact ⟨le_refl _, by omega, fun _ => rfl, fun h => absurd hz (ne_of_gt h)⟩
  · rw [if_neg hz]
    have hs : 0 < d / (n : Int) := lt_of_le_of_ne hs0 (Ne.symm hz)
    generalize hsdef : d / (n : Int) = s at hs hz hs0
    have h1 : (d + s - 1) / s * s ≤ d + s - 1 := Int.ediv_mul_le _ (ne_of_gt hs)
    have h2 : d + s - 1 < ((d + s - 1) / s + 1) * s := Int.lt_ediv_add_one_mul_self _ hs
    have h3 : 1 ≤ (d + s - 1) / s := by
      rw [Int.le_ediv_iff_mul_le hs]; omega
    have hdn : d < (s + 1) * n := by
      rw [← hsdef]; exact Int.lt_ediv_add_one_mul_self _ hn0
    have h4 : (d + s - 1) / s < 2 * (n : Int) := by
      apply Int.ediv_lt_of_lt_mul hs
      nlinarith
    have hcast : (((d + s - 1) / s).toNat : Int) = (d + s - 1) / s :=
      Int.toNat_of_nonneg (by omega)
    refine ⟨by omega, by omega, fun h => absurd h (ne_of_gt hs), fun _ => ?_⟩
    rw [hcast]
    constructor
    · have : ((d + s - 1) / s - 1) * s = (d + s - 1) / s * s - s := by ring
      omega
    · have : ((d + s - 1) / s + 1) * s = (d + s - 1) / s * s + s := by ring
      omega

/-- The course of a fade towards a higher target, in terms of the number `m` of actions
that first reach it: fewer than `m` actions stay below the target with every entry still
queued, `m` actions reach it, and each further action up to `m + p` uses up one of the `p`
surplus entries. -/
theorem fade_course (cfg : configuration) (logd : ℚ → ℚ) (σ : State) (T s : Int) (p m : Nat)
    (hσ : fading σ T s (p + 1)) (hc : in_i32 σ.curr_bright) (hT : in_i32 T)
    (hlt : σ.curr_bright < T) (hs0 : 0 ≤ s) (hov : T + s < 2147483648)
    (hm : (s = 0 ∧ m = 1) ∨
      (0 < s ∧ 1 ≤ m ∧ σ.curr_bright + ((m : Int) - 1) * s < T ∧
        T ≤ σ.curr_bright + (m : Int) * s)) :
    (∀ k, k < m → ∀ ins : List Input, ins.length = k →
      ∃ σ1, run cfg logd ins σ = .ok σ1 ∧ σ1.curr_bright ≠ T ∧
        σ1.timer_queue.length = p + 1) ∧
    (∀ j, j ≤ p → ∀ ins : List Input, ins.length = m + j →
      ∃ σ1, run cfg logd ins σ = .ok σ1 ∧ σ1.curr_bright = T ∧
        σ1.timer_queue.length = p - j) := by
  -- the state after `m - 1` actions is still below the target
  have hpre : ∀ k, k < m → ∀ ins : List Input, ins.length = k →
      ∃ σ1, run cfg logd ins σ = .ok σ1 ∧ σ1.curr_bright < T ∧
        fading σ1 T s (p + 1) ∧ (s = 0 ∨ T ≤ σ1.curr_bright + s ∨ k + 1 < m) ∧
        in_i32 σ1.curr_bright := by
    intro k hk ins hins
    rcases hm with ⟨h0, hm1⟩ | ⟨hpos, hm1, hb, ha⟩
    · have : k = 0 := by omega
      subst this
      rw [List.length_eq_zero.1 hins]
      exact ⟨σ, rfl, hlt, hσ, Or.inl h0, hc⟩
    · have hk' : (k : Int) ≤ (m : Int) - 1 := by omega
      have hmono : (k : Int) * s ≤ ((m : Int) - 1) * s :=
        mul_le_mul_of_nonneg_right hk' (le_of_lt hpos)
      have hks : 0 ≤ (k : Int) * s := mul_nonneg (by omega) (le_of_lt hpos)
      obtain ⟨σ1, h1, hc1, hf1, _⟩ := fade_climb_run cfg logd T s p hpos hT k σ.curr_bright σ
        ins hσ rfl hc (by omega) hins
      refine ⟨σ1, h1, by rw [hc1]; omega, hf1, ?_, ?_⟩
      · by_cases hkm : k + 1 < m
        · exact Or.inr (Or.inr hkm)
        · have hkeq : (k : Int) = (m : Int) - 1 := by omega
          right; left
          rw [hc1, hkeq]
          have : σ.curr_bright + ((m : Int) - 1) * s + s = σ.curr_bright + (m : Int) * s := by
            ring
          omega
      · rw [hc1]; unfold in_i32 at hc hT ⊢; omega
  have hreach : ∀ ins : List Input, ins.length = m →
      ∃ σ1, run cfg logd ins σ = .ok σ1 ∧ σ1.curr_bright = T ∧ fading σ1 T s p := by
    intro ins hins
    have hm1 : 1 ≤ m := by rcases hm with ⟨_, h⟩ | ⟨_, h, _⟩ <;> omega
    obtain ⟨σ1, h1, hlt1, hf1, hhit, hin1⟩ := hpre (m - 1) (by omega) (ins.take (m - 1))
      (by simp [hins])
    have hrest : (ins.drop (m - 1)).length = 1 := by simp [hins]; omega
    obtain ⟨inp, hinp⟩ := List.length_eq_one.1 hrest
    have hit : s = 0 ∨ (T ≤ σ1.curr_bright + s ∧ in_i32 (σ1.curr_bright + s)) := by
      rcases hhit with h | h | h
      · exact Or.inl h
      · right
        refine ⟨h, ?_⟩
        unfold in_i32 at hin1 hT ⊢; omega
      · omega
    obtain ⟨σ2, h2, hc2, hf2, _⟩ := fade_hit_step cfg logd inp σ1 T s p hf1 hit
    refine ⟨σ2, ?_, hc2, hf2⟩
    rw [← List.take_append_drop (m - 1) ins, run_append cfg logd _ _ σ σ1 h1, hinp]
    simp [run, h2]
  constructor
  · intro k hk ins hins
    obtain ⟨σ1, h1, hlt1, hf1, _, _⟩ := hpre k hk ins hins
    exact ⟨σ1, h1, ne_of_lt hlt1, hf1.pending⟩
  · intro j hj ins hins
    obtain ⟨σ1, h1, hc1, hf1⟩ := hreach (ins.take m) (by simp [hins])
    have hf1' : fading σ1 T s ((p - j) + j) := by
      rw [Nat.sub_add_cancel hj]; exact hf1
    obtain ⟨σ2, h2, hc2, hf2, _⟩ := fade_noop_run cfg logd T s hs0 hT hov j (p - j) σ1
      (ins.drop m) hf1' hc1 (by simp [hins])
    refine ⟨σ2, ?_, hc2, hf2.pending⟩
    rw [← List.take_append_drop m ins, run_append cfg logd _ _ σ σ1 h1]
    exact h2

/-- A fade action at the target with a nonnegative step that does not overflow leaves
`curr_bright` at the target. -/
theorem fade_value_at_target (T s : Int) (hT : in_i32 T) (hs : 0 ≤ s)
    (hov : T + s < 2147483648) : fade_value T T s = T := by
  unfold fade_value
  simp only
  split
  · rfl
  · rename_i h
    push_neg at h
    have : in_i32 (T + s) := by unfold in_i32 at hT ⊢; omega
    rw [wrap32_of_in _ this] at h ⊢
    omega

theorem dark_reading :
    ambient_light_poll (some "(0,0)".toList) dark_state.values_
      = .ok (List.replicate 10 0, 0) := by
  unfold ambient_light_poll read_value dark_state initial
  simp only [ambient_reading_dark]
  have : List.drop 1 (List.replicate 10 (0 : ℚ)) ++ [0] = List.replicate 10 0 := by
    simp [List.replicate]
  rw [this, window_mean_zero]

theorem emplace_perm (t : Int) (a : action_type) (id : Nat) (q : List entry) :
    (emplace t a id q).Perm (⟨t, a, id⟩ :: q) := by
  induction q with
  | nil => simp [emplace]
  | cons e q ih =>
    unfold emplace
    split
    · exact List.Perm.refl _
    · exact (List.Perm.cons e ih).trans (List.Perm.swap _ _ _)

theorem schedule_fade_perm (cfg : configuration) (now : Nat → Int) :
    ∀ (k i : Nat) (σ : State),
      (schedule_fade cfg now i k σ).timer_queue.Perm
        (σ.timer_queue ++ fade_entries cfg now i σ.next_id k) := by
  intro k
  induction k with
  | zero => intro i σ; simp [schedule_fade, fade_entries]
  | succ k ih =>
    intro i σ
    simp only [schedule_fade]
    refine (ih (i + 1) _).trans ?_
    have e1 : fade_entries cfg now i σ.next_id (k + 1)
        = ⟨now i + ms (i * cfg.fade_time / cfg.fade_steps), action_type.BACKLIGHT_FADE,
            σ.next_id⟩ :: fade_entries cfg now (i + 1) (σ.next_id + 1) k := by
      unfold fade_entries
      rw [List.range_succ_eq_map, List.map_cons, List.map_map]
      congr 1
      apply List.map_congr_left
      intro j _
      simp only [Function.comp, Nat.succ_eq_add_one]
      have a1 : i + (j + 1) = i + 1 + j := by omega
      have a2 : σ.next_id + (j + 1) = σ.next_id + 1 + j := by omega
      rw [a1, a2]
    rw [e1]
    simp only [State.emplace]
    refine (List.Perm.append_right _ (emplace_perm _ _ _ _)).trans ?_
    simp only [List.cons_append]
    exact List.perm_middle.symm

theorem step_eq_body (cfg : configuration) (logd : ℚ → ℚ) (inp : Input) (σ : State) :
    step cfg logd inp σ =
      match loop_body cfg logd inp σ with
      | .error err => .error err
      | .ok σ1 => .ok { σ1 with timer_queue := σ1.timer_queue.tail } := by
  unfold step loop_body
  cases σ.timer_queue with
  | nil => rfl
  | cons e q =>
    cases ha : e.action <;> simp only [ha]

theorem polls_perm {q1 q2 : List entry} (h : q1.Perm q2) : polls q1 = polls q2 :=
  h.countP_eq _

theorem polls_emplace (t : Int) (a : action_type) (id : Nat) (q : List entry) :
    polls (emplace t a id q)
      = polls q + (if a = action_type.BACKLIGHT_POLL then 1 else 0) := by
  rw [polls_perm (emplace_perm t a id q)]
  unfold polls
  rw [List.countP_cons]
  simp

theorem polls_tail_le (q : List entry) : polls q ≤ polls q.tail + 1 := by
  cases q with
  | nil => simp [polls]
  | cons e q =>
    unfold polls
    rw [List.countP_cons, List.tail_cons]
    split <;> omega

theorem polls_pos_iff (q : List entry) :
    1 ≤ polls q ↔ ∃ e ∈ q, e.action = action_type.BACKLIGHT_POLL := by
  unfold polls
  rw [Nat.succ_le_iff, List.countP_pos_iff]
  simp

theorem polls_schedule_fade (cfg : configuration) (now : Nat → Int) :
    ∀ (k i : Nat) (σ : State),
      polls (schedule_fade cfg now i k σ).timer_queue = polls σ.timer_queue := by
  intro k
  induction k with
  | zero => intro i σ; rfl
  | succ k ih =>
    intro i σ
    simp only [schedule_fade]
    rw [ih]
    simp only [State.emplace]
    rw [polls_emplace]
    simp

/-- A successful poll branch leaves one more poll entry in the queue, the one of lines
264-265. -/
theorem polls_poll_branch (cfg : configuration) (logd : ℚ → ℚ) (inp : Input) (σ σ1 : State)
    (h : poll_branch cfg logd inp σ = .ok σ1) :
    polls σ1.timer_queue = polls σ.timer_queue + 1 ∧
    ∃ j, (j = 0 ∨ j = cfg.fade_steps) ∧ ∃ id,
      (⟨inp.now j + ms cfg.poll_time, action_type.BACKLIGHT_POLL, id⟩ : entry)
        ∈ σ1.timer_queue := by
  obtain ⟨vs, a, cb, hp, hb, _⟩ := poll_branch_target cfg logd inp σ σ1 h
  by_cases hne : cb = max (desired_brightness logd σ.max_bright_ a) cfg.min_bright
  · rw [poll_branch_same cfg logd inp σ vs a cb hp hb hne] at h
    injection h with h
    subst h
    simp only [State.emplace]
    refine ⟨by rw [polls_emplace]; simp, 0, Or.inl rfl, σ.next_id, ?_⟩
    exact (mem_emplace _ _ _ _ _).2 (Or.inl rfl)
  · by_cases hn : cfg.fade_steps = 0
    · unfold poll_branch at h
      rw [hp] at h
      simp only [hb] at h
      rw [if_pos hne, if_pos hn] at h
      simp at h
    · rw [poll_branch_fade cfg logd inp σ vs a cb hp hb hne hn] at h
      injection h with h
      subst h
      simp only [State.emplace]
      refine ⟨?_, cfg.fade_steps, Or.inr rfl, _, (mem_emplace _ _ _ _ _).2 (Or.inl rfl)⟩
      rw [polls_emplace, polls_schedule_fade]
      simp

/-- A fade action erases a fade entry: the number of poll entries in the queue is the same
after the iteration as before. -/
theorem polls_fade_step (cfg : configuration) (logd : ℚ → ℚ) (inp : Input) (σ σ1 : State)
    (e : entry) (q : List entry) (hq : σ.timer_queue = e :: q)
    (he : e.action = action_type.BACKLIGHT_FADE) (h : step cfg logd inp σ = .ok σ1) :
    polls σ1.timer_queue = polls σ.timer_queue := by
  rw [step_fade cfg logd inp σ e q hq he] at h
  injection h with h
  subst h
  simp only [fade_branch_queue, hq]
  have hpe : polls (e :: q) = polls q := by
    unfold polls; rw [List.countP_cons]; simp [he]
  split
  · simp only [emplace]
    split
    · rw [List.tail_cons]
    · rw [List.tail_cons, polls_emplace, hpe]; simp
  · rw [List.tail_cons, hpe]

/-- Every successful iteration from a queue that holds a poll entry leaves a queue that
holds a poll entry. -/
theorem polls_step (cfg : configuration) (logd : ℚ → ℚ) (inp : Input) (σ σ1 : State)
    (hpos : 1 ≤ polls σ.timer_queue) (h : step cfg logd inp σ = .ok σ1) :
    1 ≤ polls σ1.timer_queue := by
  cases hq : σ.timer_queue with
  | nil => rw [hq] at hpos; simp [polls] at hpos
  | cons e q =>
    cases ha : e.action with
    | BACKLIGHT_FADE =>
      rw [polls_fade_step cfg logd inp σ σ1 e q hq ha h]; exact hpos
    | BACKLIGHT_POLL =>
      cases hp : poll_branch cfg logd inp σ with
      | error err =>
        unfold step at h; rw [hq] at h; simp only [ha, hp] at h
        cases h
      | ok σ' =>
        rw [step_poll cfg logd inp σ σ' e q hq ha hp] at h
        injection h with h
        subst h
        have h1 := (polls_poll_branch cfg logd inp σ σ' hp).1
        have h2 := polls_tail_le σ'.timer_queue
        simp only
        omega

theorem sublist_emplace (t : Int) (a : action_type) (id : Nat) (q : List entry) :
    q.Sublist (emplace t a id q) := by
  induction q with
  | nil => simp [emplace]
  | cons e q ih =>
    unfold emplace
    split
    · exact List.sublist_cons_self _ _
    · exact List.Sublist.cons₂ e ih

theorem grows_refl (e : entry) (σ : State) (h : σ.timer_queue.head? = some e) :
    grows e σ σ :=
  ⟨h, List.Sublist.refl _, le_refl _, by simp⟩

theorem grows_emplace (e : entry) (σ σ1 : State) (t : Int) (a : action_type)
    (h : grows e σ σ1) (ht : e.time ≤ t) : grows e σ (σ1.emplace t a) := by
  obtain ⟨h1, h2, h3, h4⟩ := h
  refine ⟨(head_emplace e σ1 t a h1 ht).1, h2.trans (sublist_emplace _ _ _ _), ?_, ?_⟩
  · simp only [State.emplace]; omega
  · simp only [State.emplace]
    have e1 : σ1.next_id + 1 - σ.next_id = (σ1.next_id - σ.next_id) + 1 := by omega
    rw [e1, List.range'_concat, ← List.append_assoc]
    have e2 : σ.next_id + 1 * (σ1.next_id - σ.next_id) = σ1.next_id := by omega
    rw [e2]
    refine ((emplace_perm t a σ1.next_id σ1.timer_queue).map entry.id).trans ?_
    simp only [List.map_cons]
    exact (List.Perm.cons _ h4).trans (List.perm_append_singleton _ _).symm

theorem grows_of_queue (e : entry) (σ σ1 σ2 : State) (h : grows e σ σ1)
    (hq : σ2.timer_queue = σ1.timer_queue) (hid : σ2.next_id = σ1.next_id) : grows e σ σ2 := by
  obtain ⟨a, b, c, d⟩ := h
  exact ⟨by rw [hq]; exact a, by rw [hq]; exact b, by rw [hid]; exact c,
    by rw [hq, hid]; exact d⟩

theorem grows_schedule_fade (cfg : configuration) (now : Nat → Int) (e : entry) (σ : State)
    (hnow : ∀ i, e.time ≤ now i) :
    ∀ (k i : Nat) (σ1 : State), grows e σ σ1 → grows e σ (schedule_fade cfg now i k σ1) := by
  intro k
  induction k with
  | zero => intro i σ1 h; exact h
  | succ k ih =>
    intro i σ1 h
    simp only [schedule_fade]
    apply ih
    apply grows_emplace e σ σ1 _ _ h
    have := ms_nonneg (i * cfg.fade_time / cfg.fade_steps)
    have := hnow i
    omega

/-- The loop body under a clock that is not early. -/
theorem grows_loop_body (cfg : configuration) (logd : ℚ → ℚ) (inp : Input) (σ σ1 : State)
    (e : entry) (he : σ.timer_queue.head? = some e)
    (hnow : ∀ i, e.time ≤ inp.now i) (h : loop_body cfg logd inp σ = .ok σ1) :
    grows e σ σ1 := by
  have h0 := grows_refl e σ he
  cases hq : σ.timer_queue with
  | nil => rw [hq] at he; simp at he
  | cons e' q =>
    have he' : e' = e := by rw [hq] at he; simpa using he
    subst he'
    unfold loop_body at h
    rw [hq] at h
    cases ha : e'.action with
    | BACKLIGHT_FADE =>
      simp only [ha] at h
      injection h with h
      subst h
      unfold fade_branch
      simp only
      split
      · apply grows_emplace
        · exact grows_of_queue e' σ σ _ h0 rfl rfl
        · have := ms_nonneg (cfg.fade_time / cfg.fade_steps)
          have := hnow 0
          omega
      · exact grows_of_queue e' σ σ _ h0 rfl rfl
    | BACKLIGHT_POLL =>
      simp only [ha] at h
      obtain ⟨vs, a, cb, hp, hb, _⟩ := poll_branch_target cfg logd inp σ σ1 h
      by_cases hne : cb = max (desired_brightness logd σ.max_bright_ a) cfg.min_bright
      · rw [poll_branch_same cfg logd inp σ vs a cb hp hb hne] at h
        injection h with h
        subst h
        apply grows_emplace
        · exact grows_of_queue e' σ σ _ h0 rfl rfl
        · have := ms_nonneg cfg.poll_time
          have := hnow 0
          omega
      · by_cases hn : cfg.fade_steps = 0
        · unfold poll_branch at h
          rw [hp] at h
          simp only [hb] at h
          rw [if_pos hne, if_pos hn] at h
          simp at h
        · rw [poll_branch_fade cfg logd inp σ vs a cb hp hb hne hn] at h
          injection h with h
          subst h
          apply grows_emplace
          · apply grows_schedule_fade cfg inp.now e' σ hnow
            exact grows_of_queue e' σ σ _ h0 rfl rfl
          · have := ms_nonneg cfg.poll_time
            have := hnow cfg.fade_steps
            omega

theorem range_split (a b c : Nat) (h1 : a ≤ b) (h2 : b ≤ c) :
    List.range' a (b - a) ++ List.range' b (c - b) = List.range' a (c - a) := by
  obtain ⟨x, rfl⟩ := Nat.exists_eq_add_of_le h1
  obtain ⟨y, rfl⟩ := Nat.exists_eq_add_of_le h2
  have e1 : a + x + y - a = x + y := by omega
  have e2 : a + x - a = x := by omega
  have e3 : a + x + y - (a + x) = y := by omega
  rw [e1, e2, e3]
  have := List.range'_append a x y 1
  rw [Nat.one_mul] at this
  rw [this, Nat.add_comm]

/-- The serial numbers of the executed and of the queued entries of a run under a clock
that is not early: they are those of the queue at the start and those handed out since. -/
theorem run_conserves (cfg : configuration) (logd : ℚ → ℚ) :
    ∀ (ins : List Input) (σ σ1 : State), clock_not_early cfg logd ins σ →
      run cfg logd ins σ = .ok σ1 →
      σ.next_id ≤ σ1.next_id ∧
      ((executed cfg logd ins σ ++ σ1.timer_queue).map entry.id).Perm
        (σ.timer_queue.map entry.id ++ List.range' σ.next_id (σ1.next_id - σ.next_id)) := by
  intro ins
  induction ins with
  | nil =>
    intro σ σ1 _ h
    simp only [run] at h
    injection h with h
    subst h
    simp [executed]
  | cons inp rest ih =>
    intro σ σ1 hclk h
    obtain ⟨hnow, hrest⟩ := hclk
    simp only [run] at h
    cases hs : step cfg logd inp σ with
    | error err => rw [hs] at h; simp at h
    | ok σ2 =>
      rw [hs] at h
      simp only at h
      obtain ⟨ih1, ih2⟩ := ih σ2 σ1 (hrest σ2 hs) h
      cases hh : σ.timer_queue.head? with
      | none =>
        have : σ.timer_queue = [] := by
          cases hq : σ.timer_queue with
          | nil => rfl
          | cons a q => rw [hq] at hh; simp at hh
        unfold step at hs
        rw [this] at hs
        simp at hs
      | some e =>
        rw [step_eq_body] at hs
        cases hb : loop_body cfg logd inp σ with
        | error err => rw [hb] at hs; simp at hs
        | ok σ' =>
          rw [hb] at hs
          injection hs with hs
          subst hs
          obtain ⟨g1, g2, g3, g4⟩ := grows_loop_body cfg logd inp σ σ' e hh (hnow e hh) hb
          have hex : executed cfg logd (inp :: rest) σ
              = e :: executed cfg logd rest { σ' with timer_queue := σ'.timer_queue.tail } := by
            simp [executed, hh, step_eq_body, hb]
          have hq' : σ'.timer_queue = e :: σ'.timer_queue.tail := by
            cases hq : σ'.timer_queue with
            | nil => rw [hq] at g1; simp at g1
            | cons a q => rw [hq] at g1; simp at g1; subst g1; rfl
          simp only at ih1 ih2
          refine ⟨by omega, ?_⟩
          rw [hex]
          simp only [List.cons_append, List.map_cons]
          refine (List.Perm.cons _ ih2).trans ?_
          have e1 : e.id :: (List.map entry.id σ'.timer_queue.tail
              ++ List.range' σ'.next_id (σ1.next_id - σ'.next_id))
              = List.map entry.id σ'.timer_queue
                ++ List.range' σ'.next_id (σ1.next_id - σ'.next_id) := by
            conv_rhs => rw [hq']
            simp
          rw [e1]
          refine (List.Perm.append_right _ g4).trans ?_
          rw [List.append_assoc]
          refine List.Perm.append_left _ ?_
          rw [range_split _ _ _ g3 ih1]

/-! # The claims -/

/-- C1: the claim fails in the decreasing direction.  With `fade_steps = 10`, brightness 100
and target 50, line 255 computes the step size -1717986924 (the difference -50 is converted
to the unsigned `size_t` before the division), while the quotient truncated toward zero
is -5. -/
theorem C1_step_size_decreasing :
    step_size_of config.fade_steps 100 50 = -1717986924 ∧ Int.tdiv (50 - 100) 10 = -5 := by
  decide

/-- C3 (counterexample): with the default `fade_steps = 10`, brightness 0 and target 19 the
step size is 1, and after `k = 0, ..., 10` fade actions `curr_bright` is `k`, so the target
19 is not reached within `fade_steps` fade actions. -/
theorem C3_counterexample :
    (List.range 11).map
        (fun k => brightness_after config (List.replicate k (quiet 0)) (fade_start config 0 19))
      = [some (0, 19), some (1, 19), some (2, 19), some (3, 19), some (4, 19), some (5, 19),
         some (6, 19), some (7, 19), some (8, 19), some (9, 19), some (10, 19)] := by
  decide

example : brightness_after config (List.replicate 18 (quiet 0)) (fade_start config 0 19) = some (18, 19) := by decide
example : (brightness_after config (List.replicate 29 (quiet 0)) (fade_start config 0 19)) = none := by decide

/-- C3 (amended): from the state a poll leaves behind with a target above the brightness
read (`int32_t` values, difference and target plus step size not overflowing), `curr_bright`
equals the target after some number `k` of fade actions with `1 ≤ k ≤ 2 * fade_steps - 1`,
whatever the clock reads. -/
theorem C3_fade_within_twice (cfg : configuration) (logd : ℚ → ℚ) (σ : State)
    (hn : 1 ≤ cfg.fade_steps)
    (hfade : ∀ e ∈ σ.timer_queue, e.action = action_type.BACKLIGHT_FADE)
    (hlen : σ.timer_queue.length = cfg.fade_steps)
    (hstep : σ.step_size = step_size_of cfg.fade_steps σ.curr_bright σ.new_bright)
    (hc : in_i32 σ.curr_bright)
    (hlt : σ.curr_bright < σ.new_bright)
    (h1 : σ.new_bright - σ.curr_bright < 2147483648)
    (h2 : σ.new_bright + (σ.new_bright - σ.curr_bright) / (cfg.fade_steps : Int) < 2147483648) :
    ∃ k, 1 ≤ k ∧ k ≤ 2 * cfg.fade_steps - 1 ∧ ∀ ins : List Input, ins.length = k →
      ∃ σ1, run cfg logd ins σ = .ok σ1 ∧ σ1.curr_bright = σ.new_bright ∧
        σ1.new_bright = σ.new_bright := by
  obtain ⟨p, hp⟩ : ∃ p, cfg.fade_steps = p + 1 := ⟨cfg.fade_steps - 1, by omega⟩
  have hσ : fading σ σ.new_bright σ.step_size (p + 1) := ⟨rfl, rfl, hfade, by rw [hlen, hp]⟩
  have hs := step_size_of_up cfg.fade_steps _ _ hn (le_of_lt hlt) h1
  rw [← hstep] at hs
  have hn0 : (0 : Int) < cfg.fade_steps := by exact_mod_cast hn
  have hs0 : 0 ≤ σ.step_size := by
    rw [hs]; exact Int.ediv_nonneg (by omega) (by omega)
  have hfirst : ∃ j : Nat, j + 1 ≤ 2 * cfg.fade_steps - 1 ∧ (σ.step_size = 0 ∨
      σ.new_bright ≤ wrap32 (σ.curr_bright + ((j : Int) + 1) * σ.step_size)) := by
    rcases eq_or_lt_of_le hs0 with h0 | h0
    · exact ⟨0, by omega, Or.inl h0.symm⟩
    · obtain ⟨a, b⟩ := up_hit σ.curr_bright σ.new_bright σ.step_size hc hlt h0
        (by rw [hs]; exact h2)
      refine ⟨((σ.new_bright - σ.curr_bright + σ.step_size - 1) / σ.step_size - 1).toNat,
        ?_, Or.inr ?_⟩
      · -- `⌈d / s⌉ ≤ 2 * fade_steps - 1`
        have hd : σ.new_bright - σ.curr_bright <
            ((σ.new_bright - σ.curr_bright) / (cfg.fade_steps : Int) + 1) * cfg.fade_steps :=
          Int.lt_ediv_add_one_mul_self _ hn0
        rw [← hs] at hd
        have hm : (σ.new_bright - σ.curr_bright + σ.step_size - 1) / σ.step_size
            < 2 * (cfg.fade_steps : Int) := by
          apply Int.ediv_lt_of_lt_mul h0
          nlinarith
        omega
      · rw [Int.toNat_of_nonneg (by omega)]
        simpa using b
  obtain ⟨j, hjb, hj⟩ := hfirst
  obtain ⟨k, hk1, hk2, hk⟩ :=
    fade_cycle cfg logd σ.new_bright σ.step_size p j σ.curr_bright hj
  refine ⟨k, hk1, by omega, ?_⟩
  intro ins hins
  obtain ⟨σ1, h, hc1, hf1⟩ := hk σ hσ rfl ins hins
  exact ⟨σ1, h, hc1, hf1.target⟩

/-- C3 (amended), instance: brightness 0, target 19, default configuration. -/
theorem C3_fade_within_twice_witness :
    ∃ k, 1 ≤ k ∧ k ≤ 2 * config.fade_steps - 1 ∧ ∀ ins : List Input, ins.length = k →
      ∃ σ1, run config (fun _ => 0) ins (fade_start config 0 19) = .ok σ1 ∧
        σ1.curr_bright = (fade_start config 0 19).new_bright ∧
        σ1.new_bright = (fade_start config 0 19).new_bright :=
  C3_fade_within_twice config (fun _ => 0) (fade_start config 0 19) (by decide) (by decide)
    (by decide) (by decide) (by decide) (by decide) (by decide) (by decide)

/-- C5 (counterexample): with maximum brightness 1 and ambient reading 1/2 the function
returns 0, while the nearest integer of `1 * ln(51) / ln(101)` (about 0.852) is 1. -/
theorem C5_counterexample :
    desired_brightness log_samples 1 (1 / 2) = 0 ∧
      round ((1 : ℝ) * Real.log (1 + 100 * (1 / 2)) / Real.log 101) = 1 := by
  constructor
  · have h50 : rnd 50 = 50 := by simpa using rnd_int 50 (by norm_num)
    have h51 : rnd 51 = 51 := by simpa using rnd_int 51 (by norm_num)
    have harg : fadd 1 (fmul 100 (1 / 2)) = 51 := by
      unfold fadd fmul; norm_num [h50, h51]
    unfold desired_brightness
    rw [harg, log_samples_51, log_samples_101]
    have hm : fmul ((1 : Int) : ℚ) (8853684227211519 / 2 ^ 51) = 8853684227211519 * 2 ^ (-51 : Int) := by
      unfold fmul
      have := rnd_exact 8853684227211519 (-51) (by norm_num) (by norm_num)
      have e : ((1 : Int) : ℚ) * (8853684227211519 / 2 ^ 51)
          = ((8853684227211519 : Int) : ℚ) * 2 ^ (-51 : Int) := by norm_num
      rw [e, this]; norm_num
    rw [hm]
    have hd : fdiv (8853684227211519 * 2 ^ (-51 : Int)) (5196163759979057 / 2 ^ 50)
        = 7673632092512524 * 2 ^ (-53 : Int) := by
      unfold fdiv
      have := rnd_eq_pos ((8853684227211519 * 2 ^ (-51 : Int)) / (5196163759979057 / 2 ^ 50)) (-1)
        7673632092512524 (by norm_num) (by norm_num) (by norm_num) (by norm_num) (by norm_num)
      simpa using this
    rw [hd]
    unfold double_to_int
    rw [if_pos (by norm_num), Int.floor_eq_iff]
    constructor <;> norm_num
  · have e : (1 : ℝ) + 100 * (1 / 2) = 51 := by norm_num
    rw [e, one_mul, round_eq, Int.floor_eq_iff]
    have h101 : 0 < Real.log 101 := Real.log_pos (by norm_num)
    have hlt : Real.log 51 < Real.log 101 := Real.log_lt_log (by norm_num) (by norm_num)
    have hsq : Real.log 101 ≤ 2 * Real.log 51 := by
      have : Real.log ((51 : ℝ) ^ 2) = 2 * Real.log 51 := by
        rw [Real.log_pow]; norm_num
      rw [← this]
      exact Real.log_le_log (by norm_num) (by norm_num)
    constructor
    · have : (1 : ℝ) / 2 ≤ Real.log 51 / Real.log 101 := by
        rw [le_div_iff₀ h101]; linarith
      push_cast; linarith
    · have : Real.log 51 / Real.log 101 < 1 := by
        rw [div_lt_one h101]; exact hlt
      push_cast; linarith

/-- C5 (amended): for `max_brightness ≥ 0` and an ambient reading in `[0, 1]`, with a
library logarithm that is nonnegative from 1 on and positive at 101, the function returns
the binary64 quotient `q` of its formula with the fraction discarded: the result `r` is a
nonnegative integer with `r ≤ q < r + 1` (not the integer nearest to `q`), and no minimum
is applied: at ambient reading 0 the result is 0 whenever `log(1) = 0`. -/
theorem C5_desired_brightness_truncates (logd : ℚ → ℚ)
    (hlog : ∀ x, 1 ≤ x → 0 ≤ logd x) (hL : 0 < logd 101)
    (m : Int) (a : ℚ) (hm : 0 ≤ m) (ha0 : 0 ≤ a) (ha1 : a ≤ 1) :
    0 ≤ desired_brightness logd m a ∧
    (desired_brightness logd m a : ℚ)
      ≤ fdiv (fmul (m : ℚ) (logd (fadd 1 (fmul 100 a)))) (logd 101) ∧
    fdiv (fmul (m : ℚ) (logd (fadd 1 (fmul 100 a)))) (logd 101)
      < desired_brightness logd m a + 1 ∧
    (logd 1 = 0 → desired_brightness logd m 0 = 0) := by
  have harg := (log_arg_bounds ha0 (le_refl a) ha1).1
  have hl := hlog _ harg
  have hmq : (0 : ℚ) ≤ m := by exact_mod_cast hm
  have hp : 0 ≤ fmul (m : ℚ) (logd (fadd 1 (fmul 100 a))) := rnd_nonneg (mul_nonneg hmq hl)
  have hq : 0 ≤ fdiv (fmul (m : ℚ) (logd (fadd 1 (fmul 100 a)))) (logd 101) :=
    rnd_nonneg (div_nonneg hp (le_of_lt hL))
  have hd : desired_brightness logd m a
      = ⌊fdiv (fmul (m : ℚ) (logd (fadd 1 (fmul 100 a)))) (logd 101)⌋ := by
    unfold desired_brightness double_to_int
    rw [if_pos hq]
  refine ⟨?_, ?_, ?_, fun h1 => desired_brightness_dark logd h1 m⟩
  · rw [hd]; exact Int.floor_nonneg.2 hq
  · rw [hd]; exact Int.floor_le _
  · rw [hd]; exact Int.lt_floor_add_one _

/-- C5 (amended), instance: maximum brightness 255, ambient reading 1/2, the sample
logarithm. -/
theorem C5_desired_brightness_truncates_witness :
    0 ≤ desired_brightness log_samples 255 (1 / 2) ∧
    (desired_brightness log_samples 255 (1 / 2) : ℚ)
      ≤ fdiv (fmul ((255 : Int) : ℚ) (log_samples (fadd 1 (fmul 100 (1 / 2))))) (log_samples 101) ∧
    fdiv (fmul ((255 : Int) : ℚ) (log_samples (fadd 1 (fmul 100 (1 / 2))))) (log_samples 101)
      < desired_brightness log_samples 255 (1 / 2) + 1 ∧
    (log_samples 1 = 0 → desired_brightness log_samples 255 0 = 0) :=
  C5_desired_brightness_truncates log_samples (fun x _ => log_samples_nonneg x)
    (by rw [log_samples_101]; norm_num) 255 (1 / 2) (by norm_num) (by norm_num) (by norm_num)

/-- C6: the claim fails at full ambient light.  With the correctly rounded value of
`log(101)`, `desired_brightness(29, 1)` is 28, not 29 (at ambient reading 0 the result is
0, as claimed). -/
theorem C6_full_light_below_max :
    desired_brightness log_samples 29 1 = 28 ∧ desired_brightness log_samples 29 0 = 0 :=
  ⟨desired_brightness_29 log_samples log_samples_101,
   desired_brightness_dark log_samples log_samples_1 29⟩

/-- C7: for a fixed `max_brightness ≥ 0` the result does not decrease when the ambient
reading grows within `[0, 1]`, for every library logarithm that is monotone on `[1, 101]`
and positive at 101. -/
theorem C7_desired_brightness_monotone (logd : ℚ → ℚ)
    (hmono : ∀ x y, 1 ≤ x → x ≤ y → y ≤ 101 → logd x ≤ logd y) (hL : 0 < logd 101)
    (m : Int) (hm : 0 ≤ m) (a b : ℚ) (ha : 0 ≤ a) (hab : a ≤ b) (hb : b ≤ 1) :
    desired_brightness logd m a ≤ desired_brightness logd m b := by
  obtain ⟨h1, h2, h3⟩ := log_arg_bounds ha hab hb
  have hl := hmono _ _ h1 h2 h3
  have hmq : (0 : ℚ) ≤ m := by exact_mod_cast hm
  unfold desired_brightness
  apply double_to_int_mono
  apply rnd_mono
  apply div_le_div_of_nonneg_right _ (le_of_lt hL)
  apply rnd_mono
  exact mul_le_mul_of_nonneg_left hl hmq

/-- C7, instance: maximum brightness 255, readings 1/4 and 3/4, the sample logarithm. -/
theorem C7_desired_brightness_monotone_witness :
    desired_brightness log_samples 255 (1 / 4) ≤ desired_brightness log_samples 255 (3 / 4) :=
  C7_desired_brightness_monotone log_samples (fun _ _ _ h _ => log_samples_mono h)
    (by rw [log_samples_101]; norm_num) 255 (by norm_num) (1 / 4) (3 / 4) (by norm_num)
    (by norm_num) (by norm_num)

/-- C4: the first half holds, the second fails.  Every successful poll leaves the target
`max(desired_brightness(max_brightness, average), min_bright)`, which is at least
`min_bright`.  But in a dark room (sensor line `(0,0)`, target 7) with the display at
brightness 100, which is above the floor 7, the first fade action after the poll passes
-1717986828 to `set_brightness`. -/
theorem C4_display_below_floor :
    (∀ (cfg : configuration) (logd : ℚ → ℚ) (inp : Input) (σ σ1 : State),
      poll_branch cfg logd inp σ = .ok σ1 →
        ∃ vs a, ambient_light_poll inp.line σ.values_ = .ok (vs, a) ∧
          σ1.new_bright = max (desired_brightness logd σ.max_bright_ a) cfg.min_bright ∧
          cfg.min_bright ≤ σ1.new_bright) ∧
    dark_poll.brightness = some 100 ∧
    ∃ σ2, run config log_samples [dark_poll, quiet 0] dark_state = .ok σ2 ∧
      σ2.new_bright = 7 ∧ σ2.display = [-1717986828] := by
  refine ⟨?_, rfl, dark_run log_samples log_samples_1⟩
  intro cfg logd inp σ σ1 h
  obtain ⟨vs, a, cb, h1, _, _, h4, h5⟩ := poll_branch_target cfg logd inp σ σ1 h
  exact ⟨vs, a, h1, h4, h5⟩

/-- C10: in every run of the loop, from the initial state, in which no clock reading of an
iteration is earlier than the timestamp of the entry being executed, the executed entries
have nondecreasing timestamps, and of two executed entries with the same timestamp the one
enqueued first (smaller serial number) is executed first. -/
theorem C10_execution_order (cfg : configuration) (logd : ℚ → ℚ) (t0 : Int)
    (values_ : List ℚ) (max_bright_ : Int) (ins : List Input)
    (hclock : clock_not_early cfg logd ins (initial t0 values_ max_bright_)) :
    (executed cfg logd ins (initial t0 values_ max_bright_)).Pairwise
      (fun a b => a.time ≤ b.time ∧ (a.time = b.time → a.id < b.id)) := by
  have hok : queue_ok (initial t0 values_ max_bright_) := by
    unfold queue_ok initial; simp
  refine List.Pairwise.imp ?_ (executed_order cfg logd ins _ hok hclock).1
  intro a b h
  unfold before at h
  rcases h with h | ⟨h1, h2⟩
  · exact ⟨le_of_lt h, fun e => absurd e (ne_of_lt h)⟩
  · exact ⟨le_of_eq h1, fun _ => h2⟩

/-- C10, instance: the dark-room poll followed by the first fade action, with every clock
reading equal to the start time 0; both executed entries carry the timestamp 0. -/
theorem C10_execution_order_witness :
    (executed config log_samples [dark_poll, quiet 0] (initial 0 (List.replicate 10 0) 255)).Pairwise
      (fun a b => a.time ≤ b.time ∧ (a.time = b.time → a.id < b.id)) :=
  C10_execution_order config log_samples 0 (List.replicate 10 0) 255 [dark_poll, quiet 0] (by
    refine ⟨?_, ?_⟩
    · intro e he i
      have : e = ⟨0, action_type.BACKLIGHT_POLL, 0⟩ := by
        simp [initial] at he; exact he.symm
      subst this
      simp [dark_poll]
    · intro σ1 h1
      have s1 := dark_first_step log_samples log_samples_1
      rw [show initial 0 (List.replicate 10 0) 255 = dark_state from rfl, s1] at h1
      injection h1 with h1
      subst h1
      refine ⟨?_, fun _ _ => trivial⟩
      intro e he i
      have h2 : dark_after_poll.timer_queue.head? = some ⟨0, action_type.BACKLIGHT_FADE, 1⟩ := by
        decide
      rw [h2] at he
      injection he with he
      subst he
      simp [quiet])

/-- C9 (counterexample): the lines `128,0` and `128` are read as 28/255 (rounded to
binary64), which is below 128/255: the first character of the line is skipped. -/
theorem C9_counterexample :
    ambient_reading "128,0".toList = some (fdiv 28 255) ∧
    ambient_reading "128".toList = some (fdiv 28 255) ∧
    fdiv 28 255 < 128 / 255 := by
  have hs : stoi ['2', '8'] = some 28 := by decide
  refine ⟨?_, ?_, ?_⟩
  · have := ambient_reading_digits '1' ['2', '8'] [',', '0'] (by decide) (by decide) (by decide)
      (Or.inr ⟨['0'], rfl⟩)
    rw [hs] at this
    simpa using this
  · have := ambient_reading_digits '1' ['2', '8'] [] (by decide) (by decide) (by decide)
      (Or.inl rfl)
    rw [hs] at this
    simpa using this
  · have h8 : rnd (1 / 8) = 1 / 8 := by
      have := rnd_exact 1 (-3) (by norm_num) (by norm_num)
      norm_num at this ⊢
      exact this
    have := rnd_mono (show (28 : ℚ) / 255 ≤ 1 / 8 by norm_num)
    rw [h8] at this
    unfold fdiv
    calc rnd (28 / 255) ≤ 1 / 8 := this
      _ < 128 / 255 := by norm_num

/-- C9 (amended): for a raw sensor line that consists of one leading character (the
opening bracket of `(128,0)`), then the decimal digits of an integer `n` with
`0 ≤ n ≤ 255`, optionally followed by a comma and arbitrary further text,
`ambient_reading` returns the binary64 quotient `n / 255.0`, a value in `[0, 1]`. -/
theorem C9_ambient_reading_skips_first (c : Char) (n : Nat) (rest : List Char)
    (hn : n ≤ 255) :
    ambient_reading (c :: Nat.toDigits 10 n) = some (fdiv (n : ℚ) 255) ∧
    ambient_reading (c :: (Nat.toDigits 10 n ++ ',' :: rest)) = some (fdiv (n : ℚ) 255) ∧
    0 ≤ fdiv (n : ℚ) 255 ∧ fdiv (n : ℚ) 255 ≤ 1 := by
  obtain ⟨h1, h2, h3, h4⟩ := toDigits_facts ⟨n, by omega⟩
  simp only at h1 h2 h3 h4
  refine ⟨?_, ?_, fdiv_255_range n hn⟩
  · have := ambient_reading_digits c (Nat.toDigits 10 n) [] h1 (by omega) h3 (Or.inl rfl)
    rw [h4, List.append_nil] at this
    simpa using this
  · have := ambient_reading_digits c (Nat.toDigits 10 n) (',' :: rest) h1 (by omega) h3
      (Or.inr ⟨rest, rfl⟩)
    rw [h4] at this
    simpa using this

/-- C9 (amended), instance: the line `(128,0)`. -/
theorem C9_ambient_reading_skips_first_witness :
    ambient_reading ('(' :: Nat.toDigits 10 128) = some (fdiv ((128 : Nat) : ℚ) 255) ∧
    ambient_reading ('(' :: (Nat.toDigits 10 128 ++ ',' :: ['0', ')']))
      = some (fdiv ((128 : Nat) : ℚ) 255) ∧
    0 ≤ fdiv ((128 : Nat) : ℚ) 255 ∧ fdiv ((128 : Nat) : ℚ) 255 ≤ 1 :=
  C9_ambient_reading_skips_first '(' 128 ['0', ')'] (by decide)

/-- C8 (counterexample): with the sensor line `(27,0)` at construction and at the first
poll, the window holds ten copies of `v0 = 27 / 255.0` before and after the poll, and the
poll returns the binary64 value just below `v0`, not the arithmetic mean
`(9 * v0 + v0) / 10 = v0`. -/
theorem C8_counterexample :
    ambient_light_new (some "(27,0)".toList)
      = .ok (List.replicate 10 (7629627604015899 * 2 ^ (-56 : Int))) ∧
    poll_seq [some "(27,0)".toList] (List.replicate 10 (7629627604015899 * 2 ^ (-56 : Int)))
      = .ok (List.replicate 10 (7629627604015899 * 2 ^ (-56 : Int)),
             [7629627604015898 * 2 ^ (-56 : Int)]) ∧
    (7629627604015898 * 2 ^ (-56 : Int) : ℚ)
      < (9 * (7629627604015899 * 2 ^ (-56 : Int)) + 7629627604015899 * 2 ^ (-56 : Int)) / 10 := by
  have hs : stoi ['2', '7'] = some 27 := by decide
  have ha : ambient_reading "(27,0)".toList = some (7629627604015899 * 2 ^ (-56 : Int)) := by
    have := ambient_reading_digits '(' ['2', '7'] [',', '0', ')'] (by decide) (by decide)
      (by decide) (Or.inr ⟨['0', ')'], rfl⟩)
    rw [hs] at this
    rw [← fdiv_27_255]
    simpa using this
  have hr : read_value (some "(27,0)".toList) = .ok (7629627604015899 * 2 ^ (-56 : Int)) := by
    unfold read_value
    simp only [ha]
  refine ⟨?_, ?_, by norm_num⟩
  · unfold ambient_light_new
    rw [hr]
  · have := poll_seq_window [some "(27,0)".toList] [7629627604015899 * 2 ^ (-56 : Int)]
      (List.replicate 10 (7629627604015899 * 2 ^ (-56 : Int)))
      (List.Forall₂.cons hr List.Forall₂.nil) (by simp [List.replicate])
    rw [this]
    have hw : (List.replicate 10 (7629627604015899 * 2 ^ (-56 : Int) : ℚ)
        ++ [7629627604015899 * 2 ^ (-56 : Int)]).drop 1
        = List.replicate 10 (7629627604015899 * 2 ^ (-56 : Int)) := by
      simp [List.replicate]
    have hr1 : List.range 1 = [0] := by decide
    simp only [List.length_singleton, hr1, List.map_cons, List.map_nil, zero_add,
      List.take_succ_cons, List.take_zero, hw, window_mean_27]

/-- C8 (amended): with `N = 10`, an initial reading `v0` and subsequent readings
`v1, ..., vk`: after construction the window holds `N` copies of `v0`; the `j`-th call of
`poll` returns the binary64 mean (the sum accumulated slot by slot from `0.0`, then divided
by 10, every operation rounded) of the last `N` elements of `[v0 × N, v1, ..., vj]`; for
`j ≤ N` these are `N - j` copies of `v0` followed by `v1, ..., vj`, for `j ≥ N` the initial
value no longer contributes; and for readings in `[0, 1]` that mean is within `2^-49` of
the exact arithmetic mean. -/
theorem C8_moving_average (line0 : Option (List Char)) (v0 : ℚ)
    (lines : List (Option (List Char))) (vs : List ℚ)
    (h0 : read_value line0 = .ok v0)
    (hs : List.Forall₂ (fun l v => read_value l = .ok v) lines vs) :
    ambient_light_new line0 = .ok (List.replicate 10 v0) ∧
    poll_seq lines (List.replicate 10 v0)
      = .ok ((List.replicate 10 v0 ++ vs).drop vs.length,
          (List.range vs.length).map
            (fun j => window_mean ((List.replicate 10 v0 ++ vs.take (j + 1)).drop (j + 1)))) ∧
    (∀ j, j ≤ 10 → (List.replicate 10 v0 ++ vs.take j).drop j
        = List.replicate (10 - j) v0 ++ vs.take j) ∧
    (∀ j, 10 ≤ j → (List.replicate 10 v0 ++ vs.take j).drop j = (vs.take j).drop (j - 10)) ∧
    (∀ w : List ℚ, w.length = 10 → (∀ x ∈ w, 0 ≤ x ∧ x ≤ 1) →
        |window_mean w - w.sum / 10| ≤ 2 ^ (-49 : Int)) := by
  refine ⟨?_, poll_seq_window lines vs _ hs (by simp [List.replicate]), ?_, ?_,
    window_mean_err⟩
  · unfold ambient_light_new
    rw [h0]
  · intro j hj
    rw [List.drop_append_of_le_length (by simpa using hj), List.drop_replicate]
  · intro j hj
    rw [List.drop_append_eq_append_drop]
    simp [List.drop_eq_nil_of_le, hj]

/-- C8 (amended), instance: the line `(27,0)` at construction and at one poll. -/
theorem C8_moving_average_witness :
    ambient_light_new (some "(27,0)".toList) = .ok (List.replicate 10 (fdiv 27 255)) ∧
    poll_seq [some "(27,0)".toList] (List.replicate 10 (fdiv 27 255))
      = .ok ((List.replicate 10 (fdiv 27 255) ++ [fdiv 27 255]).drop [fdiv (27 : ℚ) 255].length,
          (List.range [fdiv (27 : ℚ) 255].length).map
            (fun j => window_mean
              ((List.replicate 10 (fdiv 27 255) ++ [fdiv (27 : ℚ) 255].take (j + 1)).drop (j + 1)))) ∧
    (∀ j, j ≤ 10 → (List.replicate 10 (fdiv 27 255) ++ [fdiv (27 : ℚ) 255].take j).drop j
        = List.replicate (10 - j) (fdiv 27 255) ++ [fdiv (27 : ℚ) 255].take j) ∧
    (∀ j, 10 ≤ j → (List.replicate 10 (fdiv 27 255) ++ [fdiv (27 : ℚ) 255].take j).drop j
        = ([fdiv (27 : ℚ) 255].take j).drop (j - 10)) ∧
    (∀ w : List ℚ, w.length = 10 → (∀ x ∈ w, 0 ≤ x ∧ x ≤ 1) →
        |window_mean w - w.sum / 10| ≤ 2 ^ (-49 : Int)) :=
  have hr : read_value (some "(27,0)".toList) = .ok (fdiv 27 255) := by
    have hs : stoi ['2', '7'] = some 27 := by decide
    have := ambient_reading_digits '(' ['2', '7'] [',', '0', ')'] (by decide) (by decide)
      (by decide) (Or.inr ⟨['0', ')'], rfl⟩)
    rw [hs] at this
    have h : ambient_reading "(27,0)".toList = some (fdiv 27 255) := by simpa using this
    unfold read_value
    simp only [h]
  C8_moving_average (some "(27,0)".toList) (fdiv 27 255) [some "(27,0)".toList] [fdiv 27 255]
    hr (List.Forall₂.cons hr List.Forall₂.nil)

/-- C13: from the state a poll leaves behind with the target above the brightness read and
the difference a multiple of `fade_steps` (`int32_t` values, difference not overflowing):
the step `s` is positive and `fade_steps * s` is the difference; after `fade_steps` fade
actions `curr_bright` is the target; after `k < fade_steps` actions it is
`current + k * s`, which is not the target; and the values written by the `fade_steps`
actions are `current + s, current + 2 s, ..., target`, each greater than the one before
(and than the brightness read) and none above the target. -/
theorem C13_exact_fade (cfg : configuration) (logd : ℚ → ℚ) (σ : State)
    (hn : 1 ≤ cfg.fade_steps)
    (hfade : ∀ e ∈ σ.timer_queue, e.action = action_type.BACKLIGHT_FADE)
    (hlen : σ.timer_queue.length = cfg.fade_steps)
    (hstep : σ.step_size = step_size_of cfg.fade_steps σ.curr_bright σ.new_bright)
    (hc : in_i32 σ.curr_bright) (ht : in_i32 σ.new_bright)
    (hlt : σ.curr_bright < σ.new_bright)
    (hd : σ.new_bright - σ.curr_bright < 2147483648)
    (hmul : (cfg.fade_steps : Int) ∣ σ.new_bright - σ.curr_bright) :
    0 < σ.step_size ∧
    σ.curr_bright + (cfg.fade_steps : Int) * σ.step_size = σ.new_bright ∧
    (∀ ins : List Input, ins.length = cfg.fade_steps →
      ∃ σ1, run cfg logd ins σ = .ok σ1 ∧ σ1.curr_bright = σ.new_bright ∧
        σ1.display = σ.display ++
          (List.range cfg.fade_steps).map
            (fun i : Nat => σ.curr_bright + ((i : Int) + 1) * σ.step_size)) ∧
    (∀ k, k < cfg.fade_steps → ∀ ins : List Input, ins.length = k →
      ∃ σ1, run cfg logd ins σ = .ok σ1 ∧
        σ1.curr_bright = σ.curr_bright + (k : Int) * σ.step_size ∧
        σ1.curr_bright ≠ σ.new_bright) ∧
    ((List.range cfg.fade_steps).map
        (fun i : Nat => σ.curr_bright + ((i : Int) + 1) * σ.step_size)).Pairwise (· < ·) ∧
    (∀ x ∈ (List.range cfg.fade_steps).map
        (fun i : Nat => σ.curr_bright + ((i : Int) + 1) * σ.step_size),
      σ.curr_bright < x ∧ x ≤ σ.new_bright) := by
  obtain ⟨p, hp⟩ : ∃ p, cfg.fade_steps = p + 1 := ⟨cfg.fade_steps - 1, by omega⟩
  have hσ : fading σ σ.new_bright σ.step_size (p + 1) := ⟨rfl, rfl, hfade, by rw [hlen, hp]⟩
  have hs := step_size_of_up cfg.fade_steps _ _ hn (le_of_lt hlt) hd
  rw [← hstep] at hs
  have hn0 : (0 : Int) < cfg.fade_steps := by exact_mod_cast hn
  have hns : (cfg.fade_steps : Int) * σ.step_size = σ.new_bright - σ.curr_bright := by
    rw [hs]; exact Int.mul_ediv_cancel' hmul
  have hs0 : 0 < σ.step_size := by
    by_contra hneg
    push_neg at hneg
    have : (cfg.fade_steps : Int) * σ.step_size ≤ 0 :=
      mul_nonpos_of_nonneg_of_nonpos (le_of_lt hn0) hneg
    omega
  have hbelow : ∀ k : Nat, k < cfg.fade_steps →
      σ.curr_bright + (k : Int) * σ.step_size < σ.new_bright := by
    intro k hk
    have hk' : (k : Int) + 1 ≤ cfg.fade_steps := by exact_mod_cast hk
    nlinarith
  have hclimb : ∀ k, k < cfg.fade_steps → ∀ ins : List Input, ins.length = k →
      ∃ σ1, run cfg logd ins σ = .ok σ1 ∧
        σ1.curr_bright = σ.curr_bright + (k : Int) * σ.step_size ∧
        fading σ1 σ.new_bright σ.step_size (p + 1) ∧
        σ1.display = σ.display ++
          (List.range k).map (fun i : Nat => σ.curr_bright + ((i : Int) + 1) * σ.step_size) :=
    fun k hk ins hins =>
      fade_climb_run cfg logd σ.new_bright σ.step_size p hs0 ht k σ.curr_bright σ ins hσ rfl hc
        (hbelow k hk) hins
  refine ⟨hs0, by omega, ?_, ?_, climb_values_sorted _ _ hs0 _, ?_⟩
  · intro ins hins
    obtain ⟨σ1, h1, hc1, hf1, hd1⟩ := hclimb p (by omega) (ins.take p) (by simp [hins, hp])
    have hrest : (ins.drop p).length = 1 := by simp [hins, hp]
    obtain ⟨inp, hinp⟩ := List.length_eq_one.1 hrest
    have hsum : σ.curr_bright + (p : Int) * σ.step_size + σ.step_size = σ.new_bright := by
      have : (cfg.fade_steps : Int) = p + 1 := by exact_mod_cast hp
      rw [this] at hns
      linarith
    obtain ⟨σ2, h2, hc2, _, hd2⟩ := fade_hit_step cfg logd inp σ1 σ.new_bright σ.step_size p hf1
      (Or.inr ⟨by rw [hc1]; omega, by rw [hc1, hsum]; exact ht⟩)
    refine ⟨σ2, ?_, hc2, ?_⟩
    · rw [← List.take_append_drop p ins, run_append cfg logd _ _ σ σ1 h1, hinp]
      simp [run, h2]
    · rw [hd2, hd1, hp, List.range_succ, List.map_append, List.append_assoc]
      congr 2
      simp only [List.map_cons, List.map_nil, List.cons.injEq, and_true]
      linarith
  · intro k hk ins hins
    obtain ⟨σ1, h1, hc1, _, _⟩ := hclimb k hk ins hins
    exact ⟨σ1, h1, hc1, by rw [hc1]; exact ne_of_lt (hbelow k hk)⟩
  · intro x hx
    obtain ⟨i, hi, rfl⟩ := List.mem_map.1 hx
    have hi' : i < cfg.fade_steps := List.mem_range.1 hi
    have hi'' : (i : Int) + 1 ≤ cfg.fade_steps := by exact_mod_cast hi'
    have hi0 : (0 : Int) ≤ i := by omega
    constructor <;> nlinarith

/-- C13, instance: brightness 0, target 100, default configuration (step size 10). -/
theorem C13_exact_fade_witness :
    0 < (fade_start config 0 100).step_size ∧
    (fade_start config 0 100).curr_bright
      + (config.fade_steps : Int) * (fade_start config 0 100).step_size
      = (fade_start config 0 100).new_bright ∧
    (∀ ins : List Input, ins.length = config.fade_steps →
      ∃ σ1, run config (fun _ => 0) ins (fade_start config 0 100) = .ok σ1 ∧
        σ1.curr_bright = (fade_start config 0 100).new_bright ∧
        σ1.display = (fade_start config 0 100).display ++
          (List.range config.fade_steps).map
            (fun i : Nat => (fade_start config 0 100).curr_bright
              + ((i : Int) + 1) * (fade_start config 0 100).step_size)) ∧
    (∀ k, k < config.fade_steps → ∀ ins : List Input, ins.length = k →
      ∃ σ1, run config (fun _ => 0) ins (fade_start config 0 100) = .ok σ1 ∧
        σ1.curr_bright = (fade_start config 0 100).curr_bright
          + (k : Int) * (fade_start config 0 100).step_size ∧
        σ1.curr_bright ≠ (fade_start config 0 100).new_bright) ∧
    ((List.range config.fade_steps).map
        (fun i : Nat => (fade_start config 0 100).curr_bright
          + ((i : Int) + 1) * (fade_start config 0 100).step_size)).Pairwise (· < ·) ∧
    (∀ x ∈ (List.range config.fade_steps).map
        (fun i : Nat => (fade_start config 0 100).curr_bright
          + ((i : Int) + 1) * (fade_start config 0 100).step_size),
      (fade_start config 0 100).curr_bright < x ∧ x ≤ (fade_start config 0 100).new_bright) :=
  C13_exact_fade config (fun _ => 0) (fade_start config 0 100) (by decide) (by decide)
    (by decide) (by decide) (by decide) (by decide) (by decide) (by decide) (by decide)

/-- C14: when `0 < target - current < fade_steps` (difference not overflowing) the step
size of line 255 is 0, and the first fade action sets `curr_bright` to the target, writes
the target to the display and enqueues nothing: the queue is left as the rest behind the
executed entry and no serial number is handed out. -/
theorem C14_zero_step (cfg : configuration) (logd : ℚ → ℚ) (inp : Input) (σ : State)
    (e : entry) (q : List entry)
    (hq : σ.timer_queue = e :: q) (he : e.action = action_type.BACKLIGHT_FADE)
    (hstep : σ.step_size = step_size_of cfg.fade_steps σ.curr_bright σ.new_bright)
    (h0 : 0 < σ.new_bright - σ.curr_bright)
    (h1 : σ.new_bright - σ.curr_bright < cfg.fade_steps)
    (hd : σ.new_bright - σ.curr_bright < 2147483648) :
    σ.step_size = 0 ∧
    ∃ σ1, step cfg logd inp σ = .ok σ1 ∧ σ1.curr_bright = σ.new_bright ∧
      σ1.display = σ.display ++ [σ.new_bright] ∧ σ1.timer_queue = q ∧
      σ1.next_id = σ.next_id := by
  have hn : 1 ≤ cfg.fade_steps := by omega
  have hs : σ.step_size = 0 := by
    rw [hstep, step_size_of_up cfg.fade_steps _ _ hn (by omega) hd]
    exact Int.ediv_eq_zero_of_lt (by omega) h1
  have hv : fade_value σ.curr_bright σ.new_bright σ.step_size = σ.new_bright := by
    unfold fade_value; simp [hs]
  refine ⟨hs, _, step_fade cfg logd inp σ e q hq he, ?_, ?_, ?_, ?_⟩
  · simp [(fade_branch_fields cfg inp σ).1, hv]
  · simp [(fade_branch_fields cfg inp σ).2.2.2.2.2, hv]
  · simp [fade_branch_queue, hv, hq]
  · unfold fade_branch
    simp [hv]

/-- C14, instance: brightness 0, target 5, default configuration. -/
theorem C14_zero_step_witness :
    (fade_start config 0 5).step_size = 0 ∧
    ∃ σ1, step config (fun _ => 0) (quiet 0) (fade_start config 0 5) = .ok σ1 ∧
      σ1.curr_bright = (fade_start config 0 5).new_bright ∧
      σ1.display = (fade_start config 0 5).display ++ [(fade_start config 0 5).new_bright] ∧
      σ1.timer_queue = (fade_start config 0 5).timer_queue.tail ∧
      σ1.next_id = (fade_start config 0 5).next_id :=
  C14_zero_step config (fun _ => 0) (quiet 0) (fade_start config 0 5)
    ⟨0, action_type.BACKLIGHT_FADE, 0⟩ (fade_start config 0 5).timer_queue.tail
    (by decide) (by decide) (by decide) (by decide) (by decide) (by decide)

/-- C19: from the state a poll leaves behind with the target above the brightness read
(`int32_t` values, difference and target plus step not overflowing), with
`d = target - current`, `n = fade_steps`, `s = d / n` and `m = hit_count d n` (1 when
`s = 0`, else `⌈d / s⌉`, the least number of steps covering `d`): `1 ≤ m ≤ 2 n - 1`;
`curr_bright` differs from the target after fewer than `m` fade actions and equals it
after `m`; and the queue still holds fade entries after fewer than `m + n - 1` actions and
is empty, with `curr_bright` at the target, after exactly `m + n - 1`. -/
theorem C19_fade_count (cfg : configuration) (logd : ℚ → ℚ) (σ : State)
    (hn : 1 ≤ cfg.fade_steps)
    (hfade : ∀ e ∈ σ.timer_queue, e.action = action_type.BACKLIGHT_FADE)
    (hlen : σ.timer_queue.length = cfg.fade_steps)
    (hstep : σ.step_size = step_size_of cfg.fade_steps σ.curr_bright σ.new_bright)
    (hc : in_i32 σ.curr_bright) (ht : in_i32 σ.new_bright)
    (hlt : σ.curr_bright < σ.new_bright)
    (hd : σ.new_bright - σ.curr_bright < 2147483648)
    (hov : σ.new_bright + (σ.new_bright - σ.curr_bright) / (cfg.fade_steps : Int)
      < 2147483648) :
    σ.step_size = (σ.new_bright - σ.curr_bright) / (cfg.fade_steps : Int) ∧
    1 ≤ hit_count (σ.new_bright - σ.curr_bright) cfg.fade_steps ∧
    hit_count (σ.new_bright - σ.curr_bright) cfg.fade_steps ≤ 2 * cfg.fade_steps - 1 ∧
    (σ.step_size = 0 → hit_count (σ.new_bright - σ.curr_bright) cfg.fade_steps = 1) ∧
    (0 < σ.step_size →
      ((hit_count (σ.new_bright - σ.curr_bright) cfg.fade_steps : Int) - 1) * σ.step_size
        < σ.new_bright - σ.curr_bright ∧
      σ.new_bright - σ.curr_bright
        ≤ (hit_count (σ.new_bright - σ.curr_bright) cfg.fade_steps : Int) * σ.step_size) ∧
    (∀ k, k < hit_count (σ.new_bright - σ.curr_bright) cfg.fade_steps →
      ∀ ins : List Input, ins.length = k →
        ∃ σ1, run cfg logd ins σ = .ok σ1 ∧ σ1.curr_bright ≠ σ.new_bright) ∧
    (∀ ins : List Input,
      ins.length = hit_count (σ.new_bright - σ.curr_bright) cfg.fade_steps →
        ∃ σ1, run cfg logd ins σ = .ok σ1 ∧ σ1.curr_bright = σ.new_bright) ∧
    (∀ k, k < hit_count (σ.new_bright - σ.curr_bright) cfg.fade_steps + (cfg.fade_steps - 1) →
      ∀ ins : List Input, ins.length = k →
        ∃ σ1, run cfg logd ins σ = .ok σ1 ∧ σ1.timer_queue ≠ []) ∧
    (∀ ins : List Input,
      ins.length = hit_count (σ.new_bright - σ.curr_bright) cfg.fade_steps
        + (cfg.fade_steps - 1) →
        ∃ σ1, run cfg logd ins σ = .ok σ1 ∧ σ1.curr_bright = σ.new_bright ∧
          σ1.timer_queue = []) := by
  obtain ⟨p, hp⟩ : ∃ p, cfg.fade_steps = p + 1 := ⟨cfg.fade_steps - 1, by omega⟩
  have hσ : fading σ σ.new_bright σ.step_size (p + 1) := ⟨rfl, rfl, hfade, by rw [hlen, hp]⟩
  have hs := step_size_of_up cfg.fade_steps _ _ hn (le_of_lt hlt) hd
  rw [← hstep] at hs
  obtain ⟨c1, c2, c3, c4⟩ :=
    hit_count_spec (σ.new_bright - σ.curr_bright) cfg.fade_steps hn (by omega)
  rw [← hs] at c3 c4 hov
  have hn0 : (0 : Int) < cfg.fade_steps := by exact_mod_cast hn
  have hs0 : 0 ≤ σ.step_size := by
    rw [hs]; exact Int.ediv_nonneg (by omega) (le_of_lt hn0)
  have hm : (σ.step_size = 0 ∧ hit_count (σ.new_bright - σ.curr_bright) cfg.fade_steps = 1) ∨
      (0 < σ.step_size ∧ 1 ≤ hit_count (σ.new_bright - σ.curr_bright) cfg.fade_steps ∧
        σ.curr_bright
          + ((hit_count (σ.new_bright - σ.curr_bright) cfg.fade_steps : Int) - 1) * σ.step_size
          < σ.new_bright ∧
        σ.new_bright ≤ σ.curr_bright
          + (hit_count (σ.new_bright - σ.curr_bright) cfg.fade_steps : Int) * σ.step_size) := by
    rcases eq_or_lt_of_le hs0 with h | h
    · exact Or.inl ⟨h.symm, c3 h.symm⟩
    · obtain ⟨a, b⟩ := c4 h
      exact Or.inr ⟨h, c1, by omega, by omega⟩
  obtain ⟨hbefore, hafter⟩ := fade_course cfg logd σ σ.new_bright σ.step_size p
    (hit_count (σ.new_bright - σ.curr_bright) cfg.fade_steps) hσ hc ht hlt hs0 hov hm
  have hp' : cfg.fade_steps - 1 = p := by omega
  rw [hp']
  refine ⟨hs, c1, c2, c3, c4, ?_, ?_, ?_, ?_⟩
  · intro k hk ins hins
    obtain ⟨σ1, h1, h2, _⟩ := hbefore k hk ins hins
    exact ⟨σ1, h1, h2⟩
  · intro ins hins
    obtain ⟨σ1, h1, h2, _⟩ := hafter 0 (by omega) ins (by simpa using hins)
    exact ⟨σ1, h1, h2⟩
  · intro k hk ins hins
    by_cases hkm : k < hit_count (σ.new_bright - σ.curr_bright) cfg.fade_steps
    · obtain ⟨σ1, h1, _, h3⟩ := hbefore k hkm ins hins
      exact ⟨σ1, h1, by intro h; rw [h] at h3; simp at h3⟩
    · obtain ⟨σ1, h1, _, h3⟩ :=
        hafter (k - hit_count (σ.new_bright - σ.curr_bright) cfg.fade_steps) (by omega) ins
          (by omega)
      exact ⟨σ1, h1, by intro h; rw [h] at h3; simp at h3; omega⟩
  · intro ins hins
    obtain ⟨σ1, h1, h2, h3⟩ := hafter p (le_refl _) ins hins
    exact ⟨σ1, h1, h2, List.length_eq_zero.1 (by simpa using h3)⟩

/-- C19, instance: brightness 0, target 19, default configuration: step 1, the target is
first reached after 19 fade actions and the queue is empty after 28. -/
theorem C19_fade_count_witness :
    (fade_start config 0 19).step_size = ((fade_start config 0 19).new_bright - (fade_start config 0 19).curr_bright) / (config.fade_steps : Int) ∧
    1 ≤ hit_count ((fade_start config 0 19).new_bright - (fade_start config 0 19).curr_bright) config.fade_steps ∧
    hit_count ((fade_start config 0 19).new_bright - (fade_start config 0 19).curr_bright) config.fade_steps ≤ 2 * config.fade_steps - 1 ∧
    ((fade_start config 0 19).step_size = 0 → hit_count ((fade_start config 0 19).new_bright - (fade_start config 0 19).curr_bright) config.fade_steps = 1) ∧
    (0 < (fade_start config 0 19).step_size →
      ((hit_count ((fade_start config 0 19).new_bright - (fade_start config 0 19).curr_bright) config.fade_steps : Int) - 1) * (fade_start config 0 19).step_size
        < (fade_start config 0 19).new_bright - (fade_start config 0 19).curr_bright ∧
      (fade_start config 0 19).new_bright - (fade_start config 0 19).curr_bright
        ≤ (hit_count ((fade_start config 0 19).new_bright - (fade_start config 0 19).curr_bright) config.fade_steps : Int) * (fade_start config 0 19).step_size) ∧
    (∀ k, k < hit_count ((fade_start config 0 19).new_bright - (fade_start config 0 19).curr_bright) config.fade_steps →
      ∀ ins : List Input, ins.length = k →
        ∃ σ1, run config (fun _ => 0) ins (fade_start config 0 19) = .ok σ1 ∧ σ1.curr_bright ≠ (fade_start config 0 19).new_bright) ∧
    (∀ ins : List Input,
      ins.length = hit_count ((fade_start config 0 19).new_bright - (fade_start config 0 19).curr_bright) config.fade_steps →
        ∃ σ1, run config (fun _ => 0) ins (fade_start config 0 19) = .ok σ1 ∧ σ1.curr_bright = (fade_start config 0 19).new_bright) ∧
    (∀ k, k < hit_count ((fade_start config 0 19).new_bright - (fade_start config 0 19).curr_bright) config.fade_steps + (config.fade_steps - 1) →
      ∀ ins : List Input, ins.length = k →
        ∃ σ1, run config (fun _ => 0) ins (fade_start config 0 19) = .ok σ1 ∧ σ1.timer_queue ≠ []) ∧
    (∀ ins : List Input,
      ins.length = hit_count ((fade_start config 0 19).new_bright - (fade_start config 0 19).curr_bright) config.fade_steps
        + (config.fade_steps - 1) →
        ∃ σ1, run config (fun _ => 0) ins (fade_start config 0 19) = .ok σ1 ∧ σ1.curr_bright = (fade_start config 0 19).new_bright ∧
          σ1.timer_queue = []) :=
  C19_fade_count config (fun _ => 0) (fade_start config 0 19) (by decide) (by decide)
    (by decide) (by decide) (by decide) (by decide) (by decide) (by decide) (by decide)

/-- C18: the claim fails for a negative step size.  In the dark-room run (brightness 100,
target 7, step size -1717986928 from line 255) the second fade action leaves
`curr_bright = new_bright = 7`; the next fade action, a surplus entry of the same fade, sets
`curr_bright` to -1717986921, writes that value to the display and enqueues one more fade
entry (the queue is as long after the action as before). -/
theorem C18_surplus_fade_not_noop :
    ∃ σ2 σ3, run config log_samples [dark_poll, quiet 0, quiet 20000000] dark_state = .ok σ2 ∧
      σ2.curr_bright = 7 ∧ σ2.new_bright = 7 ∧ σ2.step_size = -1717986928 ∧
      σ2.timer_queue.head? = some ⟨20000000, action_type.BACKLIGHT_FADE, 12⟩ ∧
      step config log_samples (quiet 20000000) σ2 = .ok σ3 ∧
      σ3.curr_bright = -1717986921 ∧ σ3.new_bright = 7 ∧
      σ3.display = σ2.display ++ [-1717986921] ∧
      σ3.timer_queue.length = σ2.timer_queue.length := by
  simp only [run, dark_first_step log_samples log_samples_1]
  refine ⟨_, _, rfl, ?_, ?_, ?_, ?_, rfl, ?_, ?_, ?_, ?_⟩ <;> decide

/-- C15: a poll that finds the clamped target equal to the brightness read from the
display adds exactly one entry to the queue, the next poll at `now + poll_time`, and leaves
`step_size` as it was. -/
theorem C15_no_fade_when_equal (cfg : configuration) (logd : ℚ → ℚ) (inp : Input) (σ : State)
    (vs : List ℚ) (a : ℚ) (cb : Int)
    (hp : ambient_light_poll inp.line σ.values_ = .ok (vs, a))
    (hb : inp.brightness = some cb)
    (heq : cb = max (desired_brightness logd σ.max_bright_ a) cfg.min_bright) :
    ∃ σ1, poll_branch cfg logd inp σ = .ok σ1 ∧
      σ1.timer_queue = emplace (inp.now 0 + ms cfg.poll_time) action_type.BACKLIGHT_POLL
        σ.next_id σ.timer_queue ∧
      σ1.timer_queue.Perm
        (⟨inp.now 0 + ms cfg.poll_time, action_type.BACKLIGHT_POLL, σ.next_id⟩ :: σ.timer_queue) ∧
      σ1.step_size = σ.step_size ∧ σ1.curr_bright = cb ∧ σ1.new_bright = cb := by
  refine ⟨_, poll_branch_same cfg logd inp σ vs a cb hp hb heq, rfl, emplace_perm _ _ _ _,
    rfl, rfl, ?_⟩
  simp only [State.emplace]
  exact heq.symm

/-- C15, instance: the dark-room poll with the display already at the floor 7. -/
theorem C15_no_fade_when_equal_witness :
    ∃ σ1, poll_branch config log_samples dim_poll dark_state = .ok σ1 ∧
      σ1.timer_queue = emplace (dim_poll.now 0 + ms config.poll_time)
        action_type.BACKLIGHT_POLL dark_state.next_id dark_state.timer_queue ∧
      σ1.timer_queue.Perm
        (⟨dim_poll.now 0 + ms config.poll_time, action_type.BACKLIGHT_POLL, dark_state.next_id⟩
          :: dark_state.timer_queue) ∧
      σ1.step_size = dark_state.step_size ∧ σ1.curr_bright = 7 ∧ σ1.new_bright = 7 :=
  C15_no_fade_when_equal config log_samples dim_poll dark_state (List.replicate 10 0) 0 7
    dark_reading rfl
    (by rw [desired_brightness_dark log_samples log_samples_1]; decide)

/-- C16 (counterexample): with `fade_time = 200` and `fade_steps = 3` a poll at time 0
that starts a fade enqueues the fade entries at 0, 66 and 133 milliseconds, while
`2 * (fade_time / fade_steps)` is 132 milliseconds. -/
theorem C16_counterexample :
    ∃ σ1, poll_branch thirds log_samples dark_poll dark_state = .ok σ1 ∧
      (σ1.timer_queue.filter (fun e => e.action = action_type.BACKLIGHT_FADE)).map entry.time
        = [ms 0, ms 66, ms 133] ∧
      ms (2 * (thirds.fade_time / thirds.fade_steps)) = ms 132 := by
  have hnb : max (desired_brightness log_samples dark_state.max_bright_ 0) thirds.min_bright
      = 7 := by
    rw [desired_brightness_dark log_samples log_samples_1]; decide
  have e1 := poll_branch_fade thirds log_samples dark_poll dark_state _ _ 100
    dark_reading rfl (by rw [hnb]; decide) (by decide)
  rw [hnb] at e1
  refine ⟨_, e1, ?_, ?_⟩ <;> decide

/-- C16 (amended): a poll that starts a fade (`fade_steps ≥ 1`, target different from the
brightness read) adds to the queue exactly `fade_steps` fade entries and the next poll:
the `i`-th fade entry (`i = 0, ..., fade_steps - 1`) carries the timestamp
`now_i + (i * fade_time) / fade_steps` milliseconds, `now_i` being the clock reading of its
own loop round, and the poll entry `now + poll_time`.  When `fade_steps` divides
`fade_time` the offset is `i * (fade_time / fade_steps)`. -/
theorem C16_fade_schedule (cfg : configuration) (logd : ℚ → ℚ) (inp : Input) (σ : State)
    (vs : List ℚ) (a : ℚ) (cb : Int)
    (hn : 1 ≤ cfg.fade_steps)
    (hp : ambient_light_poll inp.line σ.values_ = .ok (vs, a))
    (hb : inp.brightness = some cb)
    (hne : cb ≠ max (desired_brightness logd σ.max_bright_ a) cfg.min_bright) :
    ∃ σ1, poll_branch cfg logd inp σ = .ok σ1 ∧
      σ1.timer_queue.Perm
        (σ.timer_queue ++
          (List.range cfg.fade_steps).map (fun i : Nat =>
            ⟨inp.now i + ms (i * cfg.fade_time / cfg.fade_steps),
             action_type.BACKLIGHT_FADE, σ.next_id + i⟩) ++
          [⟨inp.now cfg.fade_steps + ms cfg.poll_time, action_type.BACKLIGHT_POLL,
            σ.next_id + cfg.fade_steps⟩]) ∧
      (cfg.fade_steps ∣ cfg.fade_time →
        ∀ i : Nat, ms (i * cfg.fade_time / cfg.fade_steps)
          = (i : Int) * ms (cfg.fade_time / cfg.fade_steps)) := by
  refine ⟨_, poll_branch_fade cfg logd inp σ vs a cb hp hb hne (by omega), ?_, ?_⟩
  · simp only [State.emplace]
    refine (emplace_perm _ _ _ _).trans ?_
    have hf := schedule_fade_fields cfg inp.now cfg.fade_steps 0
      { σ with values_ := vs, curr_bright := cb,
               new_bright := max (desired_brightness logd σ.max_bright_ a) cfg.min_bright,
               step_size := step_size_of cfg.fade_steps cb
                 (max (desired_brightness logd σ.max_bright_ a) cfg.min_bright) }
    rw [hf.2.2.2.2.2.2]
    have hq := schedule_fade_perm cfg inp.now cfg.fade_steps 0
      { σ with values_ := vs, curr_bright := cb,
               new_bright := max (desired_brightness logd σ.max_bright_ a) cfg.min_bright,
               step_size := step_size_of cfg.fade_steps cb
                 (max (desired_brightness logd σ.max_bright_ a) cfg.min_bright) }
    simp only [fade_entries, zero_add] at hq
    refine List.Perm.trans ?_ (List.perm_append_singleton _ _).symm
    exact List.Perm.cons _ hq
  · intro hdvd i
    unfold ms
    rw [Nat.mul_div_assoc _ hdvd]
    push_cast
    ring

/-- C16 (amended), instance: the dark-room poll with the default configuration. -/
theorem C16_fade_schedule_witness :
    ∃ σ1, poll_branch config log_samples dark_poll dark_state = .ok σ1 ∧
      σ1.timer_queue.Perm
        (dark_state.timer_queue ++
          (List.range config.fade_steps).map (fun i : Nat =>
            ⟨dark_poll.now i + ms (i * config.fade_time / config.fade_steps),
             action_type.BACKLIGHT_FADE, dark_state.next_id + i⟩) ++
          [⟨dark_poll.now config.fade_steps + ms config.poll_time, action_type.BACKLIGHT_POLL,
            dark_state.next_id + config.fade_steps⟩]) ∧
      (config.fade_steps ∣ config.fade_time →
        ∀ i : Nat, ms (i * config.fade_time / config.fade_steps)
          = (i : Int) * ms (config.fade_time / config.fade_steps)) :=
  C16_fade_schedule config log_samples dark_poll dark_state (List.replicate 10 0) 0 100
    (by decide) dark_reading rfl
    (by rw [desired_brightness_dark log_samples log_samples_1]; decide)

/-- C11: in every run of the loop from the initial state, after every iteration that
completes without error the queue holds a poll entry (so it is not empty); a successful
poll branch puts the next poll, at a clock reading plus `poll_time`, into the queue and
raises the number of queued poll entries by one, whether or not a fade was started; and an
iteration that executes a fade action leaves the number of poll entries unchanged. -/
theorem C11_poll_pending :
    (∀ (cfg : configuration) (logd : ℚ → ℚ) (t0 : Int) (values_ : List ℚ) (max_bright_ : Int)
        (ins : List Input) (σ1 : State),
      run cfg logd ins (initial t0 values_ max_bright_) = .ok σ1 →
        σ1.timer_queue ≠ [] ∧ ∃ e ∈ σ1.timer_queue, e.action = action_type.BACKLIGHT_POLL) ∧
    (∀ (cfg : configuration) (logd : ℚ → ℚ) (inp : Input) (σ σ1 : State),
      poll_branch cfg logd inp σ = .ok σ1 →
        polls σ1.timer_queue = polls σ.timer_queue + 1 ∧
        ∃ j, (j = 0 ∨ j = cfg.fade_steps) ∧ ∃ id,
          (⟨inp.now j + ms cfg.poll_time, action_type.BACKLIGHT_POLL, id⟩ : entry)
            ∈ σ1.timer_queue) ∧
    (∀ (cfg : configuration) (logd : ℚ → ℚ) (inp : Input) (σ σ1 : State) (e : entry),
      σ.timer_queue.head? = some e → e.action = action_type.BACKLIGHT_FADE →
      step cfg logd inp σ = .ok σ1 → polls σ1.timer_queue = polls σ.timer_queue) := by
  refine ⟨?_, polls_poll_branch, ?_⟩
  · intro cfg logd t0 values_ max_bright_ ins
    have key : ∀ (ins : List Input) (σ σ1 : State), 1 ≤ polls σ.timer_queue →
        run cfg logd ins σ = .ok σ1 → 1 ≤ polls σ1.timer_queue := by
      intro ins
      induction ins with
      | nil => intro σ σ1 hpos h; simp [run] at h; subst h; exact hpos
      | cons inp rest ih =>
        intro σ σ1 hpos h
        simp only [run] at h
        cases hs : step cfg logd inp σ with
        | error err => rw [hs] at h; simp at h
        | ok σ2 =>
          rw [hs] at h
          exact ih σ2 σ1 (polls_step cfg logd inp σ σ2 hpos hs) h
    intro σ1 h
    have h1 := key ins _ σ1 (by simp [initial, polls]) h
    have h2 := (polls_pos_iff _).1 h1
    refine ⟨?_, h2⟩
    obtain ⟨e, he, _⟩ := h2
    exact List.ne_nil_of_mem he
  · intro cfg logd inp σ σ1 e hh he h
    cases hq : σ.timer_queue with
    | nil => rw [hq] at hh; simp at hh
    | cons e' q =>
      rw [hq] at hh
      simp only [List.head?_cons, Option.some.injEq] at hh
      subst hh
      have := polls_fade_step cfg logd inp σ σ1 e' q hq he h
      rw [hq] at this
      exact this

/-- C12: the propagation holds, the handling at the top level does not.  A poll whose
sensor read returns no data fails with the sensor error; the iteration yields no state (no
write to the display, no new entry), the run stops there and no entry counts as executed.
But `main` only catches the display's exception (which it logs, returning 1): the sensor's
exception is not caught, so the process ends in `std::terminate` instead of logging the
message and returning a status. -/
theorem C12_sensor_error_uncaught :
    (∀ (cfg : configuration) (logd : ℚ → ℚ) (inp : Input) (σ : State) (e : entry)
        (rest : List Input),
      σ.timer_queue.head? = some e → e.action = action_type.BACKLIGHT_POLL →
      inp.line = none →
        ambient_light_poll inp.line σ.values_ = .error .sensor_read ∧
        step cfg logd inp σ = .error .sensor_read ∧
        run cfg logd (inp :: rest) σ = .error .sensor_read ∧
        executed cfg logd (inp :: rest) σ = []) ∧
    main .sensor_read = .terminate_called ∧
    main .display_query = .returned 1 true := by
  refine ⟨?_, rfl, rfl⟩
  intro cfg logd inp σ e rest hh he hl
  have hp : ambient_light_poll inp.line σ.values_ = .error .sensor_read := by
    unfold ambient_light_poll read_value; rw [hl]
  have hs : step cfg logd inp σ = .error .sensor_read := by
    cases hq : σ.timer_queue with
    | nil => rw [hq] at hh; simp at hh
    | cons e' q =>
      rw [hq] at hh
      simp only [List.head?_cons, Option.some.injEq] at hh
      subst hh
      unfold step poll_branch
      rw [hq]
      simp only [he, hp]
  refine ⟨hp, hs, ?_, ?_⟩
  · simp only [run, hs]
  · simp only [executed, hs, hh]

/-- C17: in an iteration in which no clock reading is earlier than the timestamp of the
head entry `e`, the queue still has `e` at its head when line 281 is reached, so the entry
erased is the entry executed; the entries that were queued behind `e` are all still queued,
in their order.  Consequently, in every run from the initial state under such a clock, the
serial numbers of the executed entries together with those of the entries left in the
queue are exactly the serial numbers handed out, each once: no entry is executed twice and
none leaves the queue without having been executed. -/
theorem C17_erase_executed :
    (∀ (cfg : configuration) (logd : ℚ → ℚ) (inp : Input) (σ σ1 : State) (e : entry),
      σ.timer_queue.head? = some e → (∀ i, e.time ≤ inp.now i) →
      loop_body cfg logd inp σ = .ok σ1 →
        σ1.timer_queue.head? = some e ∧
        step cfg logd inp σ = .ok { σ1 with timer_queue := σ1.timer_queue.tail } ∧
        σ.timer_queue.tail.Sublist σ1.timer_queue.tail) ∧
    (∀ (cfg : configuration) (logd : ℚ → ℚ) (t0 : Int) (values_ : List ℚ) (max_bright_ : Int)
        (ins : List Input) (σ1 : State),
      clock_not_early cfg logd ins (initial t0 values_ max_bright_) →
      run cfg logd ins (initial t0 values_ max_bright_) = .ok σ1 →
        ((executed cfg logd ins (initial t0 values_ max_bright_)
            ++ σ1.timer_queue).map entry.id).Perm (List.range σ1.next_id)) := by
  constructor
  · intro cfg logd inp σ σ1 e hh hnow hb
    obtain ⟨g1, g2, _, _⟩ := grows_loop_body cfg logd inp σ σ1 e hh hnow hb
    refine ⟨g1, by rw [step_eq_body, hb], ?_⟩
    cases hq : σ.timer_queue with
    | nil => simp
    | cons a q =>
      cases hq' : σ1.timer_queue with
      | nil => rw [hq'] at g1; simp at g1
      | cons a' q' =>
        rw [hq] at hh g2
        rw [hq'] at g1 g2
        simp only [List.head?_cons, Option.some.injEq] at hh g1
        subst hh
        subst g1
        simpa using g2
  · intro cfg logd t0 values_ max_bright_ ins σ1 hclk h
    obtain ⟨h1, h2⟩ := run_conserves cfg logd ins _ σ1 hclk h
    refine h2.trans ?_
    simp only [initial, List.map_cons, List.map_nil, List.singleton_append]
    have : σ1.next_id = (σ1.next_id - 1) + 1 := by simp only [initial] at h1; omega
    conv_rhs => rw [this, List.range_eq_range', List.range'_succ]

end candella
